import Mathlib

/-!
Shallow embedding of the `json_explorer` view-state engine (src/json_item.rs,
src/parse_json.rs, src/app_state.rs, src/search.rs) and proofs about it.

Rust `String`/`&str` values are modelled as `List Char` (called `Str` below);
the string operations the code uses (`to_lowercase`, `contains`, `split`,
`rsplit_once`, `starts_with`) are given executable definitions on `List Char`
with the same semantics on the (ASCII-dominated) data the program handles.
Machine integers (`usize`, `u16`) are modelled as `Nat`; wherever the Rust code
can panic (checked subtraction underflow, out-of-bounds indexing, slicing with
a bad range, `%` by zero), the model returns `none` instead, so an operation
evaluates to `some st` exactly when the Rust function completes normally.
-/

/-- Rust string contents, modelled as the list of characters. -/
abbrev Str := List Char

/-- Character list of a Lean string literal (used to write concrete inputs). -/
def strOf (s : String) : Str := s.data

/-- Rust `str::to_lowercase` (the program only feeds it ASCII-relevant data;
`Char.toLower` matches `to_lowercase` on ASCII). -/
def toLowerStr (s : Str) : Str := s.map Char.toLower

/-- Rust `str::contains(pat)`: `pat` occurs as a contiguous substring. -/
def containsSub (pat : Str) : Str → Bool
  | [] => pat.isEmpty
  | c :: rest => pat.isPrefixOf (c :: rest) || containsSub pat rest

/-- Worker for `splitOnC`, with explicit fuel so it is structural recursion
(one unit of fuel per character consumed, matching left-to-right scanning). -/
def splitGo (pat : Str) : Nat → Str → Str → List Str
  | 0, acc, l => [acc.reverse ++ l]
  | _ + 1, acc, [] => [acc.reverse]
  | fuel + 1, acc, c :: rest =>
    if pat.isPrefixOf (c :: rest) then
      acc.reverse :: splitGo pat fuel [] (rest.drop (pat.length - 1))
    else
      splitGo pat fuel (c :: acc) rest

/-- Rust `str::split(pat)` for a non-empty pattern: the fields between
non-overlapping left-to-right occurrences of `pat`. -/
def splitOnC (pat l : Str) : List Str :=
  match pat with
  | [] => [l]
  | _ :: _ => splitGo pat l.length [] l

/-- Rust `str::rsplit_once(pat)`: split at the last occurrence of `pat`. -/
def rsplitOnce (s pat : Str) : Option (Str × Str) :=
  match (splitOnC pat s).reverse with
  | last :: (rest2 :: rest) => some (List.intercalate pat (rest2 :: rest).reverse, last)
  | _ => none

/-- Rust `usize::to_string`. -/
def natToChars (n : Nat) : Str := (Nat.repr n).data

/-- The breadcrumb separator `" ▶ "` used by the program. -/
def bcSep : Str := strOf " ▶ "

/-- The `JsonValueType` enum of src/json_item.rs. A `serde_json::Number` is
carried as its decimal rendering (the code only ever uses `n.to_string()`). -/
inductive JsonValueType where
  | Number (n : Str)
  | String (s : Str)
  | Bool (b : Bool)
  | Array
  | ArrayEnd
  | Object
  | ObjectEnd
  | Null
deriving DecidableEq

/-- The `JsonItem` struct of src/json_item.rs (display-only data omitted
nowhere: every field of the struct is present). -/
structure JsonItem where
  name : Option Str
  indent : Nat
  value : JsonValueType
  line_number : Nat
  collapsed : Bool
  visible : Bool
  breadcrumbs : Str
  selection_level : Option Nat
  name_is_search_result : Bool
  value_is_search_result : Bool
  len : Nat
deriving DecidableEq

/-- `JsonItem::new` of src/json_item.rs. -/
def jsonItemNew (name : Option Str) (indent : Nat) (value : JsonValueType)
    (breadcrumbs : Str) (len : Nat) : JsonItem :=
  { name := name
    indent := indent
    value := value
    line_number := 0
    collapsed := false
    visible := true
    breadcrumbs := breadcrumbs
    selection_level := none
    name_is_search_result := false
    value_is_search_result := false
    len := len }

/- A parsed JSON document: the tree handed over by the external parser
(`serde_json::Value`), with ordered object members and ordered array elements.
Numbers are carried as their rendered text. -/
mutual
inductive JVal where
  | num (n : Str)
  | str (s : Str)
  | bool (b : Bool)
  | null
  | arr (elems : JList)
  | obj (membs : JObj)
inductive JList where
  | nil
  | cons (hd : JVal) (tl : JList)
inductive JObj where
  | nil
  | cons (key : Str) (val : JVal) (tl : JObj)
end

/-- Number of elements of a `JList` (Rust `arr.len()`). -/
def jlistLength : JList → Nat
  | .nil => 0
  | .cons _ tl => jlistLength tl + 1

/-- Number of members of a `JObj` (Rust `map.len()`). -/
def jobjLength : JObj → Nat
  | .nil => 0
  | .cons _ _ tl => jobjLength tl + 1

/-- `make_breadcrumbs` of src/parse_json.rs. -/
def make_breadcrumbs (root new : Str) (value_type : JsonValueType) : Str :=
  match root with
  | [] => new
  | _ :: _ =>
    match value_type with
    | .Array => root ++ bcSep ++ (strOf "[" ++ new ++ strOf "]")
    | _ => root ++ bcSep ++ new

/- Below: `parse_json` of src/parse_json.rs (the `output.push` calls become
list concatenation; `parse_json_obj`/`parse_json_arr` are the two `for` loops
over children, with `parse_json_arr` carrying the running `enumerate` index). -/
mutual
def parse_json : JVal → Option Str → Nat → Str → List JsonItem
  | .obj map, title, indent, breadcrumbs =>
    jsonItemNew title indent .Object breadcrumbs (jobjLength map)
      :: (parse_json_obj map indent breadcrumbs
        ++ [jsonItemNew none indent .ObjectEnd breadcrumbs 0])
  | .arr arr, title, indent, breadcrumbs =>
    jsonItemNew title indent .Array breadcrumbs (jlistLength arr)
      :: (parse_json_arr arr 0 indent breadcrumbs
        ++ [jsonItemNew none indent .ArrayEnd breadcrumbs 0])
  | .num n, title, indent, breadcrumbs =>
    [jsonItemNew title indent (.Number n) breadcrumbs 0]
  | .bool b, title, indent, breadcrumbs =>
    [jsonItemNew title indent (.Bool b) breadcrumbs 0]
  | .str s, title, indent, breadcrumbs =>
    [jsonItemNew title indent (.String s) breadcrumbs 0]
  | .null, title, indent, breadcrumbs =>
    [jsonItemNew title indent .Null breadcrumbs 0]
def parse_json_obj : JObj → Nat → Str → List JsonItem
  | .nil, _, _ => []
  | .cons key value tl, indent, breadcrumbs =>
    parse_json value (some key) (indent + 1) (make_breadcrumbs breadcrumbs key .Object)
      ++ parse_json_obj tl indent breadcrumbs
def parse_json_arr : JList → Nat → Nat → Str → List JsonItem
  | .nil, _, _, _ => []
  | .cons value tl, index, indent, breadcrumbs =>
    parse_json value none (indent + 1)
        (make_breadcrumbs breadcrumbs (natToChars index) .Array)
      ++ parse_json_arr tl (index + 1) indent breadcrumbs
end

/-- The line-number assignment loop of `parse_json_string`
(src/parse_json.rs): item `i` gets `line_number := start + i`. -/
def numberLines : List JsonItem → Nat → List JsonItem
  | [], _ => []
  | it :: rest, start => { it with line_number := start } :: numberLines rest (start + 1)

/-- `parse_json_string` of src/parse_json.rs, after the external
`serde_json` parse: flatten the tree from the root (no title, indent 0, empty
breadcrumbs) and assign line numbers `0, 1, 2, …`. -/
def parse_json_doc (v : JVal) : List JsonItem :=
  numberLines (parse_json v none 0 []) 0

/-- `JsonItem::update_is_search_result` of src/json_item.rs: the search hook
that `AppState::update_search_results` actually calls. Both flags are decided
by plain case-insensitive substring containment of the *whole* query string
(no splitting of the query at `=`). -/
def update_is_search_result (it : JsonItem) (search_string : Str)
    (is_searching : Bool) : JsonItem :=
  if search_string.isEmpty || !is_searching then
    { it with value_is_search_result := false, name_is_search_result := false }
  else
    let is_result : Str → Bool := fun s => containsSub (toLowerStr search_string) (toLowerStr s)
    { it with
      name_is_search_result := is_result (it.name.getD [])
      value_is_search_result :=
        match it.value with
        | .Number n => is_result n
        | .String s => is_result s
        | .Bool b => is_result (if b then strOf "true" else strOf "false")
        | _ => false }

/-- Modelled from the spec: the `value_str` field read by src/search.rs is not
defined anywhere in this snapshot (`JsonItem` in src/json_item.rs has no such
field); the spec describes it as the precomputed string form of a scalar
value, empty for containers. -/
def value_str : JsonValueType → Str
  | .Number n => n
  | .String s => s
  | .Bool b => if b then strOf "true" else strOf "false"
  | .Null => strOf "null"
  | _ => []

/-- `not_empty` of src/search.rs. -/
def not_empty : Option Str → Bool
  | none => false
  | some st => !st.isEmpty

/-- `search_in_name` of src/search.rs. -/
def search_in_name (name : Option Str) (breadcrumbs : Str)
    (name_parts : Str × Str) : Bool :=
  match name, name_parts with
  | some n, ([], s) => containsSub (toLowerStr s) (toLowerStr n) && !s.isEmpty
  | some n, (bs, ns) =>
    containsSub (toLowerStr ns) (toLowerStr n) && containsSub (toLowerStr bs) breadcrumbs
  | _, _ => false

/-- `search_in_value` of src/search.rs. -/
def search_in_value (value : Str) (search_str : Option Str) : Bool :=
  match search_str with
  | none => false
  | some s =>
    if s = [] then false
    else if s = strOf "*" then !value.isEmpty
    else containsSub (toLowerStr s) (toLowerStr value) && !value.isEmpty

/-- `update_search_results` of src/search.rs (the orphaned search module that
implements the `=`-splitting query syntax described by the spec; nothing in
this snapshot calls it). -/
def searchrs_update_search_results (json_items : List JsonItem)
    (search_string : Str) : List JsonItem :=
  let search_components := splitOnC (strOf "=") search_string
  let name_search_str := search_components[0]?
  let value_search_str := search_components[1]?
  let name_parts :=
    if containsSub (strOf ".") (name_search_str.getD []) then
      (rsplitOnce (name_search_str.getD []) (strOf ".")).getD ([], [])
    else
      ([], name_search_str.getD [])
  json_items.map fun item =>
    let nr := search_in_name item.name item.breadcrumbs name_parts
    let vr := search_in_value (value_str item.value) value_search_str
    if not_empty name_search_str && not_empty value_search_str && !(nr && vr) then
      { item with name_is_search_result := false, value_is_search_result := false }
    else
      { item with name_is_search_result := nr, value_is_search_result := vr }

/-- The `SearchState` enum of src/app_state.rs. -/
inductive SearchState where
  | NotSearching
  | Searching
  | BrowsingSearch (idx : Option Nat)
deriving DecidableEq

/-- The `AppState` struct of src/app_state.rs. `selected` is
`list_state.selected()` (an index into `visible_items`); `search_input` is the
text of the `tui_input::Input`; the `filename` field (pure display) is
omitted. -/
structure AppState where
  items : List JsonItem
  visible_items : List JsonItem
  selected : Option Nat
  top_index : Nat
  list_height : Nat
  search_state : SearchState
  search_input : Str
  num_items_in_file : Nat
deriving DecidableEq

/-- `AppState::bottom_index`. -/
def bottom_index (st : AppState) : Nat :=
  if st.list_height < 2 then 1
  else min (st.top_index + st.list_height - 1) st.visible_items.length

/-- `AppState::recalculate_scroll_position` (total: no panics possible). -/
def recalculate_scroll_position (st : AppState) : AppState :=
  match st.selected with
  | none => st
  | some index =>
    let st1 := if index < st.top_index then { st with top_index := index } else st
    if index ≥ bottom_index st1 then
      let nt : Int := (index : Int) - (st1.list_height : Int) + 2
      { st1 with top_index := (max nt 0).toNat }
    else st1

/-- Count of equal leading components of the two breadcrumb splits
(the `zip`-and-break loop in `recalculate_selection_level`). -/
def countPrefixEq : List Str → List Str → Nat
  | a :: as2, b :: bs2 => if a = b then countPrefixEq as2 bs2 + 1 else 0
  | _, _ => 0

/-- The per-row body of the `recalculate_selection_level` window loop. -/
def applySelectionLevel (selection_breadcrumbs : Str) (it : JsonItem) : JsonItem :=
  if selection_breadcrumbs.isPrefixOf it.breadcrumbs then
    let lvl := countPrefixEq (splitOnC bcSep selection_breadcrumbs) (splitOnC bcSep it.breadcrumbs)
    { it with selection_level := some lvl }
  else
    { it with selection_level := none }

/-- `AppState::recalculate_selection_level`. Returns `none` where the Rust
code panics: `selection_index()` indexing `visible_items` out of bounds,
`self.items[index]` out of bounds, or the slice
`visible_items[top_index..bottom]` having an invalid range. -/
def recalculate_selection_level (st : AppState) : Option AppState :=
  match st.selected with
  | none => some st
  | some sel =>
    match st.visible_items[sel]? with
    | none => none
    | some selItem =>
      let index := selItem.line_number
      match st.items[index]? with
      | none => none
      | some item =>
        let selection_breadcrumbs :=
          match item.value with
          | .Number _ | .Bool _ | .String _ | .Null =>
            match rsplitOnce item.breadcrumbs bcSep with
            | some (val, _) => val
            | none => []
          | _ => item.breadcrumbs
        let bottom := bottom_index st
        if st.top_index ≤ bottom ∧ bottom ≤ st.visible_items.length then
          let vis := st.visible_items.enum.map fun p =>
            if st.top_index ≤ p.1 ∧ p.1 < bottom then
              applySelectionLevel selection_breadcrumbs p.2
            else p.2
          some { st with visible_items := vis }
        else none

/-- `AppState::select_index`: set the selection, then recompute the scroll
position and the selection levels. -/
def select_index (st : AppState) (index : Nat) : Option AppState :=
  recalculate_selection_level (recalculate_scroll_position { st with selected := some index })

/-- `AppState::selection_index`: the `line_number` of the selected visible
row. Outer `none` is the Rust panic on an out-of-range `list_state` index. -/
def selection_index (st : AppState) : Option (Option Nat) :=
  match st.selected with
  | none => some none
  | some i =>
    match st.visible_items[i]? with
    | none => none
    | some it => some (some it.line_number)

/-- `AppState::recalculate_visible`, the single left-to-right pass: state
`none` = not suppressing, state `some d` = suppressing since a collapsed row
of indent `d`. Returns the rewritten rows and the final suppression state. -/
def visPassFrom : Option Nat → List JsonItem → List JsonItem × Option Nat
  | s, [] => ([], s)
  | some d, it :: rest =>
    if it.indent = d then
      let r := visPassFrom none rest
      ({ it with visible := false } :: r.1, r.2)
    else
      let r := visPassFrom (some d) rest
      ({ it with visible := false } :: r.1, r.2)
  | none, it :: rest =>
    if it.collapsed then
      let r := visPassFrom (some it.indent) rest
      ({ it with visible := true } :: r.1, r.2)
    else
      let r := visPassFrom none rest
      ({ it with visible := true } :: r.1, r.2)

/-- `AppState::recalculate_visible`: rewrite every row's `visible` flag, then
rebuild `visible_items` as the visible rows. -/
def recalculate_visible (st : AppState) : AppState :=
  let items := (visPassFrom none st.items).1
  { st with items := items, visible_items := items.filter (·.visible) }

/-- Wrap to `u16` (Rust `as u16` cast, which truncates). -/
def u16of (n : Nat) : Nat := n % 65536

/-- Rust release-mode `u16` addition (wrapping; a debug build would panic on
overflow instead and the affected screen-relative movements are modelled with
release semantics, the later out-of-bounds indexing panic being caught by
`recalculate_selection_level`). -/
def u16add (a b : Nat) : Nat := (a + b) % 65536

/-- Rust release-mode `u16` subtraction (wrapping). -/
def u16sub (a b : Nat) : Nat := (a % 65536 + 65536 - b % 65536) % 65536

/-- `AppState::select_next`. `visible_items.len() - 1` underflows (panics) on
an empty list, modelled by `none`. -/
def select_next (st : AppState) (step : Nat) : Option AppState :=
  match st.selected with
  | none => select_index st 0
  | some index =>
    if st.visible_items.length = 0 then none
    else select_index st (min (index + step) (st.visible_items.length - 1))

/-- `AppState::select_previous`. -/
def select_previous (st : AppState) (step : Nat) : Option AppState :=
  match st.selected with
  | none => select_index st 0
  | some index => select_index st (if index > step then index - step else 0)

/-- Comparison indent used by the sibling-movement operations: the row's own
`indent` for container open/end rows, `indent - 1` for every other row. For a
scalar at indent 0 the Rust `indent - 1` underflows; such a row only ever
exists as the sole row of a single-scalar document, where the sibling search
finds nothing either way, so plain truncated subtraction is faithful. -/
def sibling_indent (it : JsonItem) : Nat :=
  match it.value with
  | .Array | .ArrayEnd | .Object | .ObjectEnd => it.indent
  | _ => it.indent - 1

/-- `AppState::select_next_object`: the `enumerate().find(...)` scan for the
first visible row after the selection whose indent equals `sibling_indent`. -/
def select_next_object (st : AppState) : Option AppState :=
  match st.selected with
  | none => select_index st 0
  | some selection_index =>
    match st.visible_items[selection_index]? with
    | none => none
    | some selItem =>
      let indent := sibling_indent selItem
      let found := (st.visible_items.enum.find? fun p =>
        decide (p.1 > selection_index) && decide (p.2.indent = indent)).map Prod.fst
      select_index st (found.getD selection_index)

/-- `AppState::select_previous_object`: the `enumerate().rfind(...)` scan for
the last visible row before the selection whose indent equals
`sibling_indent`. -/
def select_previous_object (st : AppState) : Option AppState :=
  match st.selected with
  | none => select_index st 0
  | some selection_index =>
    match st.visible_items[selection_index]? with
    | none => none
    | some selItem =>
      let indent := sibling_indent selItem
      let found := (st.visible_items.enum.reverse.find? fun p =>
        decide (p.1 < selection_index) && decide (p.2.indent = indent)).map Prod.fst
      select_index st (found.getD selection_index)

/-- `AppState::select_top`. -/
def select_top (st : AppState) : Option AppState :=
  select_index st 0

/-- `AppState::select_bottom`. -/
def select_bottom (st : AppState) : Option AppState :=
  if st.visible_items.length = 0 then none
  else select_index st (st.visible_items.length - 1)

/-- `AppState::select_top_of_screen`. -/
def select_top_of_screen (st : AppState) : Option AppState :=
  select_index st st.top_index

/-- `AppState::select_middle_of_screen` (u16 arithmetic as in the source). -/
def select_middle_of_screen (st : AppState) : Option AppState :=
  let top := u16of st.top_index
  let num_items := u16of st.visible_items.length
  let bottom := min (u16sub (u16add top num_items) 1) (u16sub (u16add top (u16of st.list_height)) 2)
  let index := u16add top bottom / 2
  select_index st index

/-- `AppState::select_bottom_of_screen` (u16 arithmetic as in the source). -/
def select_bottom_of_screen (st : AppState) : Option AppState :=
  let top := u16of st.top_index
  let num_items := u16of st.visible_items.length
  let index := min (u16sub (u16add top num_items) 1) (u16sub (u16add top (u16of st.list_height)) 2)
  select_index st index

/-- Flip the `collapsed` flag of the row at position `i` (the
`self.items[i].collapsed = !self.items[i].collapsed` statement). -/
def flipCollapsedAt (l : List JsonItem) (i : Nat) : List JsonItem :=
  match l[i]? with
  | none => l
  | some it => l.set i { it with collapsed := !it.collapsed }

/-- Does this row hold a container-open value (`Array`/`Object`)? -/
def isContOpen : Option JsonItem → Bool
  | some it =>
    match it.value with
    | .Array | .Object => true
    | _ => false
  | none => false

/-- The backward walk of `toggle_collapsed`: from position `i` scan towards
position 0 for the first container-open row; `none` means the loop hit `i = 0`
without finding one and broke out. -/
def walkContainer (items : List JsonItem) : Nat → Option Nat
  | 0 => if isContOpen items[0]? then some 0 else none
  | i + 1 => if isContOpen items[(i + 1)]? then some (i + 1) else walkContainer items i

/-- `AppState::toggle_collapsed`. The Rust `selection - diff` is an unchecked
`usize` subtraction: when `selection < diff` a debug build panics at the
subtraction and a release build wraps and panics on the out-of-range selection
in the very next `recalculate_selection_level`; both are modelled as `none`. -/
def toggle_collapsed (st : AppState) : Option AppState :=
  match st.selected with
  | none => some st
  | some sel =>
    match st.visible_items[sel]? with
    | none => none
    | some selItem =>
      let index := selItem.line_number
      if index < st.items.length then
        match walkContainer st.items index with
        | none => some st
        | some i =>
          let st2 := { st with items := flipCollapsedAt st.items i }
          let diff := index - i
          if sel < diff then none
          else
            match select_index st2 (sel - diff) with
            | none => none
            | some st3 => recalculate_selection_level (recalculate_visible st3)
      else none

/-- `AppState::collapse_level`. -/
def collapse_level (st : AppState) : Option AppState :=
  match st.selected with
  | none => some st
  | some sel =>
    match st.visible_items[sel]? with
    | none => none
    | some selItem =>
      let index := selItem.line_number
      match st.items[index]? with
      | none => none
      | some item =>
        match item.value with
        | .Array | .Object =>
          let indent := item.indent
          let line_number := item.line_number
          let items2 := st.items.map fun it =>
            if it.indent = indent ∧ (it.value = .Array ∨ it.value = .Object) then
              { it with collapsed := true }
            else it
          let st2 := recalculate_visible { st with items := items2 }
          select_index st2
            ((st2.visible_items.findIdx? fun it => it.line_number == line_number).getD 0)
        | _ => some st

/-- `AppState::uncollapse_all`. -/
def uncollapse_all (st : AppState) : Option AppState :=
  match st.visible_items[st.selected.getD 0]? with
  | none => none
  | some it =>
    let line_number := it.line_number
    let st2 := recalculate_visible
      { st with items := st.items.map fun i2 => { i2 with collapsed := false } }
    select_index st2
      ((st2.visible_items.findIdx? fun it2 => it2.line_number == line_number).getD 0)

/-- `AppState::search_results`: visible-sequence indices of rows with either
match flag set. -/
def search_results (st : AppState) : List Nat :=
  (st.visible_items.enum.filter fun p =>
    p.2.name_is_search_result || p.2.value_is_search_result).map Prod.fst

/-- `AppState::update_search_results` of src/app_state.rs: refresh both flags
of every *visible* row via `JsonItem::update_is_search_result`, then, while
actively typing a search, jump to the first match if there is one. -/
def update_search_results (st : AppState) : Option AppState :=
  let st2 := { st with visible_items := st.visible_items.map fun it =>
    update_is_search_result it st.search_input (decide (st.search_state ≠ .NotSearching)) }
  if st2.search_state = .Searching then
    match search_results st2 with
    | [] => some st2
    | r :: _ => select_index st2 r
  else some st2

/-- `AppState::next_search_result`. `(index + 1) % len` panics when the match
set is empty (`% 0`), modelled by `none`. -/
def next_search_result (st : AppState) : Option AppState :=
  match st.search_state with
  | .BrowsingSearch (some index) =>
    let results := search_results st
    if results.isEmpty then none
    else
      let new_index := (index + 1) % results.length
      match results[new_index]? with
      | none => none
      | some r =>
        (select_index st r).map fun st2 =>
          { st2 with search_state := .BrowsingSearch (some new_index) }
  | _ => some st

/-- `AppState::previous_search_result`. `len - 1` underflows on an empty match
set when `index = 0`, and indexing an empty match set panics otherwise. -/
def previous_search_result (st : AppState) : Option AppState :=
  match st.search_state with
  | .BrowsingSearch (some index) =>
    let results := search_results st
    match index with
    | 0 =>
      if results.isEmpty then none
      else
        let new_index := results.length - 1
        match results[new_index]? with
        | none => none
        | some r =>
          (select_index st r).map fun st2 =>
            { st2 with search_state := .BrowsingSearch (some new_index) }
    | i + 1 =>
      match results[i]? with
      | none => none
      | some r =>
        (select_index st r).map fun st2 =>
          { st2 with search_state := .BrowsingSearch (some i) }
  | _ => some st

/-- `AppState::start_searching`. -/
def start_searching (st : AppState) : Option AppState :=
  match uncollapse_all st with
  | none => none
  | some st2 =>
    update_search_results { st2 with search_state := .Searching, search_input := [] }

/-- `AppState::cancel_searching`. -/
def cancel_searching (st : AppState) : Option AppState :=
  update_search_results { st with search_state := .NotSearching }

/-- `AppState::finish_searching`. -/
def finish_searching (st : AppState) : Option AppState :=
  match update_search_results st with
  | none => none
  | some st2 =>
    let new_state :=
      match (search_results st2)[0]? with
      | some _ => SearchState.BrowsingSearch (some 0)
      | none => SearchState.NotSearching
    some { st2 with search_state := new_state }

/-- `AppState::update_search`: the `tui_input` edit is abstracted as the
resulting text of the input box; above the 100 000-value threshold the live
recomputation is skipped. -/
def update_search (st : AppState) (text : Str) : Option AppState :=
  let is_large_file := st.num_items_in_file > 100000
  let st2 := { st with search_input := text }
  if is_large_file then some st2 else update_search_results st2

/-- `AppState::new`: both row lists start as copies of the flattened rows,
`num_items_in_file` counts the non-end rows, and `select_next(1)` establishes
the initial selection. -/
def app_state_new (items : List JsonItem) : Option AppState :=
  let st : AppState :=
    { items := items
      visible_items := items
      selected := none
      top_index := 0
      list_height := 0
      search_state := .NotSearching
      search_input := []
      num_items_in_file :=
        (items.filter fun i2 => !(i2.value == .ObjectEnd) && !(i2.value == .ArrayEnd)).length }
  select_next st 1

/-- The per-frame `app_state.list_height = list_chunk.height` assignment of
src/ui.rs (`height` is a `u16`). -/
def set_list_height (st : AppState) (h : Nat) : AppState :=
  { st with list_height := h % 65536 }

/-- Is this value a container-open marker (`Array`/`Object`)? -/
def isOpenRow : JsonValueType → Bool
  | .Array | .Object => true
  | _ => false

/-- Is this value a container-end marker (`ArrayEnd`/`ObjectEnd`)? -/
def isEndRow : JsonValueType → Bool
  | .ArrayEnd | .ObjectEnd => true
  | _ => false

/-- Is this value a scalar row (`Number`/`String`/`Bool`/`Null`)? -/
def isScalarRow : JsonValueType → Bool
  | .Number _ | .String _ | .Bool _ | .Null => true
  | _ => false

/-- Scalar text of a value: the string the search hook compares against
(`Number`/`String`/`Bool` rows only; container and `Null` rows never match by
value in src/json_item.rs). -/
def scalarText : JsonValueType → Option Str
  | .Number n => some n
  | .String s => some s
  | .Bool b => some (if b then strOf "true" else strOf "false")
  | _ => none

/-- Substring occurrence, stated structurally (the specification-side reading
of Rust `contains`). -/
def isSubstring (pat l : Str) : Prop := ∃ l₁ l₂, l = l₁ ++ (pat ++ l₂)

/-- Well-formed row sequences: what the flattener emits, with arbitrary
`collapsed` flags on container-open rows (the only rows whose flag any
operation ever sets). A forest at depth `d` is a sequence of scalar rows at
depth `d` and matched open/body/end blocks whose bodies are forests at depth
`d + 1`. -/
inductive Forest : Nat → List JsonItem → Prop where
  | nil (d : Nat) : Forest d []
  | scalar (d : Nat) (it : JsonItem) (l : List JsonItem) :
      it.indent = d → isScalarRow it.value = true → it.collapsed = false →
      Forest d l → Forest d (it :: l)
  | container (d : Nat) (o : JsonItem) (body : List JsonItem) (e : JsonItem)
      (l : List JsonItem) :
      o.indent = d → isOpenRow o.value = true →
      e.indent = d → isEndRow e.value = true → e.collapsed = false →
      Forest (d + 1) body → Forest d l →
      Forest d (o :: (body ++ e :: l))

/-- The declarative visibility specification of the claim: row `j` lies
strictly inside the span of a collapsed container-open row (its body
positions), or is that container's own matching end row (position
`pre.length + body.length + 1`). -/
def Dspec (items : List JsonItem) (j : Nat) : Prop :=
  ∃ pre o body e rest,
    items = pre ++ o :: (body ++ e :: rest)
    ∧ isOpenRow o.value = true ∧ o.collapsed = true
    ∧ isEndRow e.value = true ∧ e.indent = o.indent
    ∧ (∀ b ∈ body, o.indent < b.indent)
    ∧ pre.length < j ∧ j ≤ pre.length + body.length + 1

/-- One breadcrumb path segment: an object key or an array index. -/
inductive Seg where
  | key (k : Str)
  | idx (i : Nat)
deriving DecidableEq

/-- Bare text of a segment (what the root level uses: no brackets). -/
def segText : Seg → Str
  | .key k => k
  | .idx i => natToChars i

/-- Bracketed text of a segment (below the root: `[index]` for array
indices, the plain key for object members). -/
def segTextBracketed : Seg → Str
  | .key k => k
  | .idx i => strOf "[" ++ natToChars i ++ strOf "]"

/-- Amended breadcrumb construction: a child breadcrumb extends the parent
breadcrumb by separator plus bracketed segment, except that on an empty
(root) parent breadcrumb the child breadcrumb is the bare segment, with no
separator and no brackets. -/
def crumbAppend (b : Str) (s : Seg) : Str :=
  if b = [] then segText s else b ++ bcSep ++ segTextBracketed s

/-- Breadcrumb of a whole root-to-row path under the amended construction. -/
def crumbOfPath (p : List Seg) : Str := p.foldl crumbAppend []

/- Below: `parse_json` again, annotated with the root-to-row path of every
emitted row (same recursion and same `make_breadcrumbs` calls as
`parse_json`; only the `× List Seg` annotation is added). -/
mutual
def parse_json_paths : JVal → Option Str → Nat → Str → List Seg → List (JsonItem × List Seg)
  | .obj map, title, indent, breadcrumbs, path =>
    (jsonItemNew title indent .Object breadcrumbs (jobjLength map), path)
      :: (parse_json_obj_paths map indent breadcrumbs path
        ++ [(jsonItemNew none indent .ObjectEnd breadcrumbs 0, path)])
  | .arr arr, title, indent, breadcrumbs, path =>
    (jsonItemNew title indent .Array breadcrumbs (jlistLength arr), path)
      :: (parse_json_arr_paths arr 0 indent breadcrumbs path
        ++ [(jsonItemNew none indent .ArrayEnd breadcrumbs 0, path)])
  | .num n, title, indent, breadcrumbs, path =>
    [(jsonItemNew title indent (.Number n) breadcrumbs 0, path)]
  | .bool b, title, indent, breadcrumbs, path =>
    [(jsonItemNew title indent (.Bool b) breadcrumbs 0, path)]
  | .str s, title, indent, breadcrumbs, path =>
    [(jsonItemNew title indent (.String s) breadcrumbs 0, path)]
  | .null, title, indent, breadcrumbs, path =>
    [(jsonItemNew title indent .Null breadcrumbs 0, path)]
def parse_json_obj_paths : JObj → Nat → Str → List Seg → List (JsonItem × List Seg)
  | .nil, _, _, _ => []
  | .cons key value tl, indent, breadcrumbs, path =>
    parse_json_paths value (some key) (indent + 1)
        (make_breadcrumbs breadcrumbs key .Object) (path ++ [.key key])
      ++ parse_json_obj_paths tl indent breadcrumbs path
def parse_json_arr_paths : JList → Nat → Nat → Str → List Seg → List (JsonItem × List Seg)
  | .nil, _, _, _, _ => []
  | .cons value tl, index, indent, breadcrumbs, path =>
    parse_json_paths value none (indent + 1)
        (make_breadcrumbs breadcrumbs (natToChars index) .Array) (path ++ [.idx index])
      ++ parse_json_arr_paths tl (index + 1) indent breadcrumbs path
end

/-- Erase the transient `selection_level` annotation (the only row field that
`recalculate_selection_level` rewrites in place inside `visible_items`). -/
def clearSel (it : JsonItem) : JsonItem := { it with selection_level := none }

/-- The two search-match flags of a row. -/
def flagPair (it : JsonItem) : Bool × Bool :=
  (it.name_is_search_result, it.value_is_search_result)

/-- Are both search-match flags clear on every row of the list? -/
def flags_clear (l : List JsonItem) : Bool :=
  l.all fun it => !it.name_is_search_result && !it.value_is_search_result

/-- States reachable in the interactive loop of src/ui.rs: the initial state
built by `AppState::new` on a flattened document, closed under the per-frame
viewport-height assignment and every event handler (`update_search` is
abstracted over the resulting input text, which only enlarges the reachable
set). A step exists only when the operation completes without panicking. -/
inductive Reach : AppState → Prop where
  | init (v : JVal) (st : AppState) :
      app_state_new (parse_json_doc v) = some st → Reach st
  | height (st : AppState) (h : Nat) : Reach st → Reach (set_list_height st h)
  | selNext (st st2 : AppState) (step : Nat) :
      Reach st → select_next st step = some st2 → Reach st2
  | selPrev (st st2 : AppState) (step : Nat) :
      Reach st → select_previous st step = some st2 → Reach st2
  | selNextObj (st st2 : AppState) :
      Reach st → select_next_object st = some st2 → Reach st2
  | selPrevObj (st st2 : AppState) :
      Reach st → select_previous_object st = some st2 → Reach st2
  | selTop (st st2 : AppState) :
      Reach st → select_top st = some st2 → Reach st2
  | selBottom (st st2 : AppState) :
      Reach st → select_bottom st = some st2 → Reach st2
  | selTopScreen (st st2 : AppState) :
      Reach st → select_top_of_screen st = some st2 → Reach st2
  | selMiddleScreen (st st2 : AppState) :
      Reach st → select_middle_of_screen st = some st2 → Reach st2
  | selBottomScreen (st st2 : AppState) :
      Reach st → select_bottom_of_screen st = some st2 → Reach st2
  | toggle (st st2 : AppState) :
      Reach st → toggle_collapsed st = some st2 → Reach st2
  | collapseLevel (st st2 : AppState) :
      Reach st → collapse_level st = some st2 → Reach st2
  | uncollapseAll (st st2 : AppState) :
      Reach st → uncollapse_all st = some st2 → Reach st2
  | startSearch (st st2 : AppState) :
      Reach st → start_searching st = some st2 → Reach st2
  | cancelSearch (st st2 : AppState) :
      Reach st → cancel_searching st = some st2 → Reach st2
  | finishSearch (st st2 : AppState) :
      Reach st → finish_searching st = some st2 → Reach st2
  | updSearch (st st2 : AppState) (text : Str) :
      Reach st → update_search st text = some st2 → Reach st2
  | nextResult (st st2 : AppState) :
      Reach st → next_search_result st = some st2 → Reach st2
  | prevResult (st st2 : AppState) :
      Reach st → previous_search_result st = some st2 → Reach st2

/-- Concrete document for the search claims:
`{"a": {"id": 42}, "b": {"id": 7}}`. -/
def docC1 : JVal :=
  .obj (.cons (strOf "a") (.obj (.cons (strOf "id") (.num (strOf "42")) .nil))
    (.cons (strOf "b") (.obj (.cons (strOf "id") (.num (strOf "7")) .nil)) .nil))

/-- Flattened rows of `docC1`. -/
def itemsC1 : List JsonItem := parse_json_doc docC1

/-- The `docC1` session state right before submitting query `q`: fresh state,
viewport height 30, search mode active with `q` typed. -/
def stC1 (q : String) : Option AppState :=
  (app_state_new itemsC1).map fun st =>
    { set_list_height st 30 with search_state := .Searching, search_input := strOf q }

/-- Concrete document for the panic claim: `{"a": {"x": 1, "y": 2}, "b": 5}`. -/
def docC2 : JVal :=
  .obj (.cons (strOf "a")
    (.obj (.cons (strOf "x") (.num (strOf "1")) (.cons (strOf "y") (.num (strOf "2")) .nil)))
    (.cons (strOf "b") (.num (strOf "5")) .nil))

/-- Flattened rows of `docC2`. -/
def itemsC2 : List JsonItem := parse_json_doc docC2

/-- `docC2` session, freshly loaded. -/
def stC2a : AppState := (app_state_new itemsC2).get (by decide)

/-- `docC2` session after the first rendered frame (viewport height 30). -/
def stC2b : AppState := set_list_height stC2a 30

/-- `docC2` session after pressing `j` (select the row of `"a"`). -/
def stC2c : AppState := (select_next stC2b 1).get (by decide)

/-- `docC2` session after pressing `c` (collapse the subtree of `"a"`). -/
def stC2d : AppState := (toggle_collapsed stC2c).get (by decide)

/-- `docC2` session after pressing `j` again (select the row of `"b"`,
which now sits right after the collapsed subtree of `"a"`). -/
def stC2e : AppState := (select_next stC2d 1).get (by decide)

/-- Concrete document for the re-anchoring claim: `{"a": {"p": 1}, "b": 2}`. -/
def docC3 : JVal :=
  .obj (.cons (strOf "a") (.obj (.cons (strOf "p") (.num (strOf "1")) .nil))
    (.cons (strOf "b") (.num (strOf "2")) .nil))

/-- Flattened rows of `docC3`. -/
def itemsC3 : List JsonItem := parse_json_doc docC3

/-- `docC3` session with the scalar row of `"b"` (line 4) selected, fully
expanded. -/
def stC3sel : AppState :=
  (((app_state_new itemsC3).map (set_list_height · 30)).bind (select_next · 4)).get (by decide)

/-- Concrete document for the sibling-movement claim: `{"a": 1, "b": 2}`. -/
def docC4 : JVal :=
  .obj (.cons (strOf "a") (.num (strOf "1")) (.cons (strOf "b") (.num (strOf "2")) .nil))

/-- Flattened rows of `docC4`. -/
def itemsC4 : List JsonItem := parse_json_doc docC4

/-- `docC4` session with the scalar row of `"a"` (visible index 1) selected. -/
def stC4sel : AppState :=
  (((app_state_new itemsC4).map (set_list_height · 30)).bind (select_next · 1)).get (by decide)

/-- Concrete state for the scroll-invariant claim: viewport height 1 (the
spec quantifies over every supplied viewport height), row 1 selected. -/
def stC7x : AppState :=
  { items := itemsC4
    visible_items := itemsC4
    selected := some 1
    top_index := 0
    list_height := 1
    search_state := .NotSearching
    search_input := []
    num_items_in_file := 2 }

/-- Concrete document for the breadcrumb claim: `[5]` (a root array). -/
def docC6 : JVal := .arr (.cons (.num (strOf "5")) .nil)

/-- Concrete document `{"a": {"x": 1}}` used by several witnesses. -/
def docW : JVal :=
  .obj (.cons (strOf "a") (.obj (.cons (strOf "x") (.num (strOf "1")) .nil)) .nil)

/-- Flattened rows of `docW`. -/
def itemsW : List JsonItem := parse_json_doc docW

/-- Freshly loaded `docW` session. -/
def stW0 : AppState := (app_state_new itemsW).get (by decide)

/-- `docW` session with the scalar row of `"x"` (line 2) selected, viewport
height 30. -/
def stC3w : AppState :=
  (select_next (set_list_height stW0 30) 2).get (by decide)

/-- `docW` session with the container row of `"a"` (line 1) selected,
viewport height 30. -/
def stC8w : AppState :=
  (select_next (set_list_height stW0 30) 1).get (by decide)

/-- Row builder for hand-written well-formed row lists. -/
def mkRow (name : Option String) (indent : Nat) (value : JsonValueType)
    (line : Nat) (coll : Bool) (bc : String) : JsonItem :=
  { name := name.map strOf
    indent := indent
    value := value
    line_number := line
    collapsed := coll
    visible := true
    breadcrumbs := strOf bc
    selection_level := none
    name_is_search_result := false
    value_is_search_result := false
    len := 1 }

/-- Rows of `{"a": {"x": 1}}` with the container of `"a"` collapsed. -/
def wItems : List JsonItem :=
  [mkRow none 0 .Object 0 false "",
   mkRow (some "a") 1 .Object 1 true "a",
   mkRow (some "x") 2 (.Number (strOf "1")) 2 false "a ▶ x",
   mkRow none 1 .ObjectEnd 3 false "a",
   mkRow none 0 .ObjectEnd 4 false ""]

/-- State holding `wItems` (only `items` matters to `recalculate_visible`). -/
def stC5w : AppState :=
  { items := wItems
    visible_items := wItems
    selected := none
    top_index := 0
    list_height := 0
    search_state := .NotSearching
    search_input := []
    num_items_in_file := 3 }

/-- Copy of `stC7x` with a viewport height the scroll invariant supports. -/
def stC7w : AppState := { stC7x with list_height := 30 }

/-! Theorems. -/

theorem containsSub_iff (pat l : Str) : containsSub pat l = true ↔ isSubstring pat l := by
  induction l with
  | nil =>
    simp only [containsSub, List.isEmpty_iff, isSubstring]
    constructor
    · rintro rfl
      exact ⟨[], [], rfl⟩
    · rintro ⟨l₁, l₂, h⟩
      rcases List.append_eq_nil.mp h.symm with ⟨rfl, h2⟩
      rcases List.append_eq_nil.mp h2 with ⟨rfl, rfl⟩
      rfl
  | cons c rest ih =>
    simp only [containsSub, Bool.or_eq_true, ih]
    constructor
    · rintro (hpre | ⟨l₁, l₂, rfl⟩)
      · rcases List.isPrefixOf_iff_prefix.mp hpre with ⟨t, ht⟩
        exact ⟨[], t, ht.symm⟩
      · exact ⟨c :: l₁, l₂, rfl⟩
    · rintro ⟨l₁, l₂, heq⟩
      cases l₁ with
      | nil =>
        left
        exact List.isPrefixOf_iff_prefix.mpr ⟨l₂, by simpa using heq.symm⟩
      | cons c1 l1 =>
        right
        rcases List.cons_eq_cons.mp heq with ⟨rfl, rfl⟩
        exact ⟨l1, l₂, rfl⟩

/-- Claim C1, counterexample: on the document
`{"a": {"id": 42}, "b": {"id": 7}}` the search hook that is actually wired in
(`AppState::update_search_results` calling `JsonItem::update_is_search_result`)
marks no row at all for the query `"id=42"`, although the `"id": 42` row
exists — the claim says exactly that row is marked. -/
theorem c1_counterexample :
    ((stC1 "id=42").bind update_search_results).map search_results = some []
    ∧ (itemsC1[2]?.map fun it => (it.name, it.value))
        = some (some (strOf "id"), .Number (strOf "42")) := by
  decide

/-- Claim C1, amended: the wired search performs no splitting at `=`. A row's
name flag is set iff the lowercased whole query text occurs in the lowercased
name, its value flag iff the query occurs in the scalar value text (never for
containers or null); on the example document the queries `"id=42"`, `"id=*"`
and `"id="` therefore mark no row, while `"id"` marks both `id` rows. -/
theorem c1_amended :
    (∀ (it : JsonItem) (q : Str) (searching : Bool),
      ((update_is_search_result it q searching).name_is_search_result = true
        ↔ q ≠ [] ∧ searching = true
            ∧ isSubstring (toLowerStr q) (toLowerStr (it.name.getD [])))
      ∧ ((update_is_search_result it q searching).value_is_search_result = true
        ↔ q ≠ [] ∧ searching = true
            ∧ ∃ s, scalarText it.value = some s ∧ isSubstring (toLowerStr q) (toLowerStr s)))
    ∧ ((stC1 "id=42").bind update_search_results).map search_results = some []
    ∧ ((stC1 "id=*").bind update_search_results).map search_results = some []
    ∧ ((stC1 "id=").bind update_search_results).map search_results = some []
    ∧ ((stC1 "id").bind update_search_results).map search_results = some [2, 5] := by
  refine ⟨fun it q searching => ?_, by decide, by decide, by decide, by decide⟩
  unfold update_is_search_result
  by_cases hq : q.isEmpty || !searching
  · rcases Bool.or_eq_true_iff.mp hq with hq1 | hq1
    · simp [hq, List.isEmpty_iff.mp hq1]
    · have : searching = false := by
        cases searching <;> simp_all
      simp [hq, this]
  · have hq1 : ¬q = [] := by
      intro h
      subst h
      simp at hq
    have hq2 : searching = true := by
      cases searching <;> simp_all
    simp only [hq, Bool.false_eq_true, if_false, ite_false]
    constructor
    · simp [containsSub_iff, hq1, hq2]
    · cases hv : it.value <;>
        simp [hv, scalarText, containsSub_iff, hq1, hq2]

/-- Claim C2: a key sequence on `{"a": {"x": 1, "y": 2}, "b": 5}` — `j`
(select `"a"`), `c` (collapse it), `j` (select `"b"`), `c` — drives
`toggle_collapsed` into the unchecked `selection - diff` subtraction with
`selection = 2 < 4 = diff`, so the program panics (debug: subtraction
overflow; release: the wrapped selection index is out of bounds in the
following `recalculate_selection_level`). The final state is reachable and
the operation does not complete. -/
theorem c2_toggle_panics : Reach stC2e ∧ toggle_collapsed stC2e = none := by
  constructor
  · have h0 : Reach stC2a := Reach.init docC2 stC2a (Option.some_get (by decide)).symm
    have h1 : Reach stC2b := Reach.height stC2a 30 h0
    have h2 : Reach stC2c := Reach.selNext stC2b stC2c 1 h1 (Option.some_get (by decide)).symm
    have h3 : Reach stC2d := Reach.toggle stC2c stC2d h2 (Option.some_get (by decide)).symm
    exact Reach.selNext stC2d stC2e 1 h3 (Option.some_get (by decide)).symm
  · decide

/-- Claim C3, counterexample: on `{"a": {"p": 1}, "b": 2}` with the scalar
row of `"b"` (line 4) selected — a row strictly inside the span of the root
container (positions 0…5) — `toggle_collapsed` flips line 1, the open row of
the *preceding sibling subtree* `"a"` (span 1…3, which does not contain 4),
not the nearest enclosing container (the root, whose flag stays `false`), and
moves the selection to that sibling row even though the previously selected
row `"b"` is still visible. -/
theorem c3_counterexample :
    stC3sel.selected = some 4
    ∧ (stC3sel.visible_items.map fun it => (it.line_number, it.name))
        = [(0, none), (1, some (strOf "a")), (2, some (strOf "p")), (3, none),
           (4, some (strOf "b")), (5, none)]
    ∧ itemsC3.map (·.indent) = [0, 1, 2, 1, 1, 0]
    ∧ (toggle_collapsed stC3sel).map (fun st2 => (st2.selected, st2.items.map (·.collapsed)))
        = some (some 1, [false, true, false, false, false, false])
    ∧ (toggle_collapsed stC3sel).map (fun st2 => st2.visible_items.map (·.line_number))
        = some [0, 1, 4, 5] := by
  decide

/-- Claim C4, counterexample: on `{"a": 1, "b": 2}` with the scalar row of
`"a"` (visible index 1, depth 1) selected, `select_next_object` selects index
3 (the root `ObjectEnd`, depth 0) — the comparison depth for a scalar is its
depth minus one, not its own depth, which would have selected index 2
(`"b"`, depth 1). -/
theorem c4_counterexample :
    stC4sel.selected = some 1
    ∧ itemsC4.map (·.indent) = [0, 1, 1, 0]
    ∧ (itemsC4[1]?.map fun it => isScalarRow it.value) = some true
    ∧ (select_next_object stC4sel).map (·.selected) = some (some 3) := by
  decide

/-- Claim C6, counterexample: flattening the root array `[5]` gives the
element row the breadcrumb `"0"` — the bare index, not the bracket form
`"[0]"` the claim asserts for a direct child of a root array. -/
theorem c6_counterexample :
    ((parse_json_doc docC6).map (·.breadcrumbs))[1]? = some (strOf "0")
    ∧ strOf "0" ≠ strOf "[0]" := by
  decide

/-- Claim C7, counterexample: with supplied viewport height 1 (the claim
quantifies over every supplied height) and row 1 of 4 selected,
`recalculate_scroll_position` sets `top_index = 2` while `bottom_index = 1`,
so the selected index 1 does not lie in `[top_index, bottom_index)`. -/
theorem c7_counterexample :
    stC7x.selected = some 1 ∧ 1 < stC7x.visible_items.length
    ∧ ¬((recalculate_scroll_position stC7x).top_index ≤ 1
        ∧ 1 < bottom_index (recalculate_scroll_position stC7x)) := by
  decide

/-- Claim C7, amended: provided the supplied viewport height is at least 2
and the selected index is within the visible sequence, every selection change
(which funnels through `recalculate_scroll_position`) leaves the selected
index inside `[top_index, bottom_index)`, with `top_index` updated exactly as
the claim describes. -/
theorem c7_amended (st : AppState) (sel : Nat) (hsel : st.selected = some sel)
    (hlen : sel < st.visible_items.length) (hh : 2 ≤ st.list_height) :
    (recalculate_scroll_position st).top_index ≤ sel
    ∧ sel < bottom_index (recalculate_scroll_position st) := by
  have hmax : ∀ a : Int, (max a 0).toNat = a.toNat := by
    intro a
    rcases le_total a 0 with h | h
    · simp [max_eq_right h, Int.toNat_of_nonpos h]
    · simp [max_eq_left h]
  unfold recalculate_scroll_position
  rw [hsel]
  simp only [bottom_index]
  split_ifs with h1 h2 h3 h4 h5 <;>
    simp_all [bottom_index] <;>
    omega

/-- Witness for the amended scroll-invariant claim at a concrete state. -/
theorem c7_witness :
    (recalculate_scroll_position stC7w).top_index ≤ 1
    ∧ 1 < bottom_index (recalculate_scroll_position stC7w) :=
  c7_amended stC7w 1 (by decide) (by decide) (by decide)

theorem visPass_length (s : Option Nat) (l : List JsonItem) :
    (visPassFrom s l).1.length = l.length := by
  induction l generalizing s with
  | nil => cases s <;> rfl
  | cons it rest ih =>
    cases s with
    | none =>
      by_cases h : it.collapsed <;> simp [visPassFrom, h, ih]
    | some d =>
      by_cases h : it.indent = d <;> simp [visPassFrom, h, ih]

theorem visPass_append (s : Option Nat) (l₁ l₂ : List JsonItem) :
    visPassFrom s (l₁ ++ l₂)
      = ((visPassFrom s l₁).1 ++ (visPassFrom (visPassFrom s l₁).2 l₂).1,
         (visPassFrom (visPassFrom s l₁).2 l₂).2) := by
  induction l₁ generalizing s with
  | nil => cases s <;> simp [visPassFrom]
  | cons it rest ih =>
    cases s with
    | none =>
      by_cases h : it.collapsed <;> simp [visPassFrom, h, ih]
    | some d =>
      by_cases h : it.indent = d <;> simp [visPassFrom, h, ih]

theorem visPass_suppressed (s : Nat) (l : List JsonItem)
    (h : ∀ it ∈ l, it.indent ≠ s) :
    visPassFrom (some s) l = (l.map fun it => { it with visible := false }, some s) := by
  induction l with
  | nil => rfl
  | cons it rest ih =>
    have h1 : it.indent ≠ s := h it (by simp)
    simp [visPassFrom, h1, ih fun x hx => h x (by simp [hx])]

theorem visPass_cons_none (it : JsonItem) (rest : List JsonItem) :
    visPassFrom none (it :: rest)
      = ({ it with visible := true }
          :: (visPassFrom (if it.collapsed then some it.indent else none) rest).1,
         (visPassFrom (if it.collapsed then some it.indent else none) rest).2) := by
  by_cases h : it.collapsed <;> simp [visPassFrom, h]

theorem visPass_cons_some (d : Nat) (it : JsonItem) (rest : List JsonItem) :
    visPassFrom (some d) (it :: rest)
      = ({ it with visible := false }
          :: (visPassFrom (if it.indent = d then none else some d) rest).1,
         (visPassFrom (if it.indent = d then none else some d) rest).2) := by
  by_cases h : it.indent = d <;> simp [visPassFrom, h]

theorem visPass_map_field {α : Type} (f : JsonItem → α)
    (hf : ∀ it b, f { it with visible := b } = f it) (s : Option Nat)
    (l : List JsonItem) : (visPassFrom s l).1.map f = l.map f := by
  induction l generalizing s with
  | nil => cases s <;> rfl
  | cons it rest ih =>
    cases s with
    | none => rw [visPass_cons_none]; simp [hf, ih]
    | some d => rw [visPass_cons_some]; simp [hf, ih]

theorem visPass_congr (s : Option Nat) (l₁ l₂ : List JsonItem)
    (h : l₁.map (fun it => (it.indent, it.collapsed)) = l₂.map fun it => (it.indent, it.collapsed)) :
    (visPassFrom s l₁).1.map (·.visible) = (visPassFrom s l₂).1.map (·.visible)
    ∧ (visPassFrom s l₁).2 = (visPassFrom s l₂).2 := by
  induction l₁ generalizing s l₂ with
  | nil =>
    cases l₂ with
    | nil => cases s <;> exact ⟨rfl, rfl⟩
    | cons b l => simp at h
  | cons it rest ih =>
    cases l₂ with
    | nil => simp at h
    | cons b l =>
      simp only [List.map_cons, List.cons.injEq, Prod.mk.injEq] at h
      obtain ⟨⟨hi, hc⟩, ht⟩ := h
      cases s with
      | none =>
        rw [visPass_cons_none, visPass_cons_none]
        have hS : (if it.collapsed then some it.indent else none)
            = (if b.collapsed then some b.indent else none) := by
          rw [hi, hc]
        rw [← hS]
        have := ih (if it.collapsed then some it.indent else none) l ht
        simp [this.1, this.2]
      | some d =>
        rw [visPass_cons_some, visPass_cons_some]
        have hS : (if it.indent = d then none else some d)
            = (if b.indent = d then (none : Option Nat) else some d) := by
          rw [hi]
        rw [← hS]
        have := ih (if it.indent = d then none else some d) l ht
        simp [this.1, this.2]

theorem forest_indent_ge {d : Nat} {l : List JsonItem} (hf : Forest d l) :
    ∀ it ∈ l, d ≤ it.indent := by
  induction hf with
  | nil => simp
  | scalar d it l hind hsc hcol hf ih =>
    intro x hx
    rcases List.mem_cons.mp hx with rfl | hx
    · omega
    · exact ih x hx
  | container d o body e l ho hoo he hee hec hfb hfl ihb ihl =>
    intro x hx
    rcases List.mem_cons.mp hx with rfl | hx
    · omega
    · rcases List.mem_append.mp hx with hx | hx
      · have := ihb x hx
        omega
      · rcases List.mem_cons.mp hx with rfl | hx
        · omega
        · exact ihl x hx

theorem forest_append {d : Nat} {l₁ l₂ : List JsonItem}
    (h1 : Forest d l₁) (h2 : Forest d l₂) : Forest d (l₁ ++ l₂) := by
  induction h1 with
  | nil => exact h2
  | scalar d it l hind hsc hcol hf ih =>
    exact Forest.scalar d it _ hind hsc hcol (ih h2)
  | container d o body e l ho hoo he hee hec hfb hfl ihb ihl =>
    have heq : (o :: (body ++ e :: l)) ++ l₂ = o :: (body ++ e :: (l ++ l₂)) := by simp
    rw [heq]
    exact Forest.container d o body e _ ho hoo he hee hec hfb (ihl h2)

mutual
theorem forest_parse_json : ∀ (v : JVal) (t : Option Str) (d : Nat) (bc : Str),
    Forest d (parse_json v t d bc)
  | .obj m, _, d, bc =>
    Forest.container d _ _ _ [] rfl rfl rfl rfl rfl
      (forest_parse_json_obj m d bc) (Forest.nil d)
  | .arr a, _, d, bc =>
    Forest.container d _ _ _ [] rfl rfl rfl rfl rfl
      (forest_parse_json_arr a 0 d bc) (Forest.nil d)
  | .num _, _, d, _ => Forest.scalar d _ [] rfl rfl rfl (Forest.nil d)
  | .bool _, _, d, _ => Forest.scalar d _ [] rfl rfl rfl (Forest.nil d)
  | .str _, _, d, _ => Forest.scalar d _ [] rfl rfl rfl (Forest.nil d)
  | .null, _, d, _ => Forest.scalar d _ [] rfl rfl rfl (Forest.nil d)
theorem forest_parse_json_obj : ∀ (m : JObj) (d : Nat) (bc : Str),
    Forest (d + 1) (parse_json_obj m d bc)
  | .nil, d, _ => Forest.nil (d + 1)
  | .cons k v tl, d, bc =>
    forest_append (forest_parse_json v (some k) (d + 1) (make_breadcrumbs bc k .Object))
      (forest_parse_json_obj tl d bc)
theorem forest_parse_json_arr : ∀ (a : JList) (i d : Nat) (bc : Str),
    Forest (d + 1) (parse_json_arr a i d bc)
  | .nil, _, d, _ => Forest.nil (d + 1)
  | .cons v tl, i, d, bc =>
    forest_append
      (forest_parse_json v none (d + 1) (make_breadcrumbs bc (natToChars i) .Array))
      (forest_parse_json_arr tl (i + 1) d bc)
end

theorem numberLines_append (l₁ l₂ : List JsonItem) (n : Nat) :
    numberLines (l₁ ++ l₂) n = numberLines l₁ n ++ numberLines l₂ (n + l₁.length) := by
  induction l₁ generalizing n with
  | nil => simp [numberLines]
  | cons it rest ih =>
    simp [numberLines, ih, Nat.add_assoc, Nat.add_comm 1]

theorem forest_numberLines {d : Nat} {l : List JsonItem} (hf : Forest d l) :
    ∀ n : Nat, Forest d (numberLines l n) := by
  induction hf with
  | nil => intro n; exact Forest.nil _
  | scalar d it l hind hsc hcol hf ih =>
    intro n
    exact Forest.scalar d _ _ hind hsc hcol (ih (n + 1))
  | container d o body e l ho hoo he hee hec hfb hfl ihb ihl =>
    intro n
    have : numberLines (o :: (body ++ e :: l)) n
        = { o with line_number := n }
          :: (numberLines body (n + 1)
            ++ { e with line_number := n + 1 + body.length }
              :: numberLines l (n + 1 + body.length + 1)) := by
      simp [numberLines, numberLines_append]
    rw [this]
    exact Forest.container d _ _ _ _ ho hoo he hee hec (ihb (n + 1)) (ihl _)

theorem forest_parse_json_doc (v : JVal) : Forest 0 (parse_json_doc v) :=
  forest_numberLines (forest_parse_json v none 0 []) 0

theorem numberLines_map_line (l : List JsonItem) (n : Nat) :
    (numberLines l n).map (·.line_number) = List.range' n l.length := by
  induction l generalizing n with
  | nil => simp [numberLines]
  | cons it rest ih => simp [numberLines, List.range', ih]

theorem scalar_not_open {v : JsonValueType} (h : isScalarRow v = true) :
    isOpenRow v = false := by
  cases v <;> simp_all [isScalarRow, isOpenRow]

theorem end_not_open {v : JsonValueType} (h : isEndRow v = true) :
    isOpenRow v = false := by
  cases v <;> simp_all [isEndRow, isOpenRow]

theorem end_not_scalar {v : JsonValueType} (h : isEndRow v = true) :
    isScalarRow v = false := by
  cases v <;> simp_all [isEndRow, isScalarRow]

theorem open_not_end {v : JsonValueType} (h : isOpenRow v = true) :
    isEndRow v = false := by
  cases v <;> simp_all [isEndRow, isOpenRow]

theorem firstCross {d : Nat} :
    ∀ (b₁ : List JsonItem) (e₁ : JsonItem) (r₁ : List JsonItem)
      (b₂ : List JsonItem) (e₂ : JsonItem) (r₂ : List JsonItem),
      b₁ ++ e₁ :: r₁ = b₂ ++ e₂ :: r₂ →
      (∀ x ∈ b₁, d < x.indent) → e₁.indent ≤ d →
      (∀ x ∈ b₂, d < x.indent) → e₂.indent ≤ d →
      b₁ = b₂ ∧ e₁ = e₂ ∧ r₁ = r₂ := by
  intro b₁
  induction b₁ with
  | nil =>
    intro e₁ r₁ b₂ e₂ r₂ heq h1 he1 h2 he2
    cases b₂ with
    | nil =>
      simp only [List.nil_append, List.cons.injEq] at heq
      exact ⟨rfl, heq.1, heq.2⟩
    | cons x b =>
      simp only [List.nil_append, List.cons_append, List.cons.injEq] at heq
      have hx : d < x.indent := h2 x (by simp)
      rw [← heq.1] at hx
      omega
  | cons y b₁ ih =>
    intro e₁ r₁ b₂ e₂ r₂ heq h1 he1 h2 he2
    cases b₂ with
    | nil =>
      simp only [List.cons_append, List.nil_append, List.cons.injEq] at heq
      have hy : d < y.indent := h1 y (by simp)
      rw [heq.1] at hy
      omega
    | cons x b =>
      simp only [List.cons_append, List.cons.injEq] at heq
      obtain ⟨rfl, htail⟩ := heq
      obtain ⟨hb, he, hr⟩ := ih e₁ r₁ b e₂ r₂ htail
        (fun z hz => h1 z (by simp [hz])) he1 (fun z hz => h2 z (by simp [hz])) he2
      exact ⟨by rw [hb], he, hr⟩

theorem forest_open_matched {d : Nat} {l : List JsonItem} (hf : Forest d l) :
    ∀ pre o post, l = pre ++ o :: post → isOpenRow o.value = true →
      ∃ body e rest, post = body ++ e :: rest ∧ isEndRow e.value = true
        ∧ e.collapsed = false ∧ e.indent = o.indent
        ∧ ∀ b ∈ body, o.indent < b.indent := by
  induction hf with
  | nil =>
    intro pre o post h
    cases pre <;> simp at h
  | scalar d it l hind hsc hcol hfl ih =>
    intro pre o post heq hop
    cases pre with
    | nil =>
      simp only [List.nil_append, List.cons.injEq] at heq
      rw [← heq.1, scalar_not_open hsc] at hop
      exact absurd hop (by simp)
    | cons p pre2 =>
      simp only [List.cons_append, List.cons.injEq] at heq
      exact ih pre2 o post heq.2 hop
  | container d o2 body e l ho hoo he hee hec hfb hfl ihb ihl =>
    intro pre o post heq hop
    cases pre with
    | nil =>
      simp only [List.nil_append, List.cons.injEq] at heq
      obtain ⟨ho2, hpost⟩ := heq
      refine ⟨body, e, l, hpost.symm, hee, hec, ?_, ?_⟩
      · rw [← ho2, he, ho]
      · intro b hb
        have := forest_indent_ge hfb b hb
        rw [← ho2, ho]
        omega
    | cons p pre2 =>
      simp only [List.cons_append, List.cons.injEq] at heq
      obtain ⟨hp, htail⟩ := heq
      have htail2 : pre2 ++ (o :: post) = body ++ (e :: l) := by simpa using htail.symm
      rcases List.append_eq_append_iff.mp htail2 with ⟨a, ha1, ha2⟩ | ⟨c, hc1, hc2⟩
      · cases a with
        | nil =>
          simp only [List.nil_append, List.cons.injEq] at ha2
          rw [← ha2.1, open_not_end hop] at hee
          exact absurd hee (by simp)
        | cons x a2 =>
          simp only [List.cons_append, List.cons.injEq] at ha2
          obtain ⟨hxo, hpost⟩ := ha2
          rw [← hxo] at ha1
          obtain ⟨mb, me, mr, hsplit, hmee, hmec, hmei, hmb⟩ := ihb pre2 o a2 ha1 hop
          refine ⟨mb, me, mr ++ e :: l, ?_, hmee, hmec, hmei, hmb⟩
          rw [hpost, hsplit]
          simp
      · cases c with
        | nil =>
          simp only [List.nil_append, List.cons.injEq] at hc2
          rw [hc2.1, open_not_end hop] at hee
          exact absurd hee (by simp)
        | cons x c2 =>
          simp only [List.cons_append, List.cons.injEq] at hc2
          exact ihl c2 o post hc2.2 hop

theorem forest_end_matched {d : Nat} {l : List JsonItem} (hf : Forest d l) :
    ∀ pre e post, l = pre ++ e :: post → isEndRow e.value = true →
      ∃ pre2 o body, pre = pre2 ++ o :: body ∧ isOpenRow o.value = true
        ∧ o.indent = e.indent ∧ ∀ b ∈ body, e.indent < b.indent := by
  induction hf with
  | nil =>
    intro pre e post h
    cases pre <;> simp at h
  | scalar d it l hind hsc hcol hfl ih =>
    intro pre e post heq hend
    cases pre with
    | nil =>
      simp only [List.nil_append, List.cons.injEq] at heq
      rw [heq.1, end_not_scalar hend] at hsc
      exact absurd hsc (by simp)
    | cons p pre2 =>
      simp only [List.cons_append, List.cons.injEq] at heq
      obtain ⟨rfl, htail⟩ := heq
      obtain ⟨pre3, o, body2, hsplit, hoo2, hoi, hb⟩ := ih pre2 e post htail hend
      exact ⟨it :: pre3, o, body2, by rw [hsplit]; rfl, hoo2, hoi, hb⟩
  | container d o2 body e2 l ho hoo he hee hec hfb hfl ihb ihl =>
    intro pre e post heq hend
    cases pre with
    | nil =>
      simp only [List.nil_append, List.cons.injEq] at heq
      rw [heq.1, end_not_open hend] at hoo
      exact absurd hoo (by simp)
    | cons p pre2 =>
      simp only [List.cons_append, List.cons.injEq] at heq
      obtain ⟨hp, htail⟩ := heq
      have htail2 : pre2 ++ (e :: post) = body ++ (e2 :: l) := by simpa using htail.symm
      rcases List.append_eq_append_iff.mp htail2 with ⟨a, ha1, ha2⟩ | ⟨c, hc1, hc2⟩
      · cases a with
        | nil =>
          simp only [List.nil_append, List.cons.injEq] at ha2
          simp only [List.append_nil] at ha1
          refine ⟨[], o2, body, by rw [hp, ha1]; rfl, hoo, ?_, ?_⟩
          · rw [ha2.1, ho, he]
          · intro b hb
            have := forest_indent_ge hfb b hb
            rw [ha2.1, he]
            omega
        | cons x a2 =>
          simp only [List.cons_append, List.cons.injEq] at ha2
          obtain ⟨hxe, hpost⟩ := ha2
          rw [← hxe] at ha1
          obtain ⟨pre3, o3, body3, hsplit, hoo3, hoi3, hb3⟩ := ihb pre2 e a2 ha1 hend
          refine ⟨p :: pre3, o3, body3, ?_, hoo3, hoi3, hb3⟩
          rw [hsplit]
          rfl
      · cases c with
        | nil =>
          simp only [List.nil_append, List.cons.injEq] at hc2
          simp only [List.append_nil] at hc1
          refine ⟨[], o2, body, by rw [hp, hc1]; rfl, hoo, by rw [← hc2.1, ho, he], ?_⟩
          intro b hb
          have := forest_indent_ge hfb b hb
          rw [← hc2.1, he]
          omega
        | cons x c2 =>
          simp only [List.cons_append, List.cons.injEq] at hc2
          obtain ⟨hxe2, htail3⟩ := hc2
          obtain ⟨pre3, o3, body3, hsplit, hoo3, hoi3, hb3⟩ := ihl c2 e post htail3 hend
          refine ⟨p :: body ++ e2 :: pre3, o3, body3, ?_, hoo3, hoi3, hb3⟩
          rw [hc1, hsplit, hxe2]
          simp

theorem numberLines_length (l : List JsonItem) (n : Nat) :
    (numberLines l n).length = l.length := by
  induction l generalizing n with
  | nil => rfl
  | cons it rest ih => simp [numberLines, ih]

/-- Claim C9, confirmed: for every document the flattener emits rows whose
line numbers are exactly `0 … n-1` in order; every container-open row is
followed by a matching container-end row at the same depth with every row
strictly between the pair strictly deeper (and that matching decomposition is
unique); and every container-end row is preceded by such a matching open —
no dangling open or end. -/
theorem c9_flattener (v : JVal) :
    ((parse_json_doc v).map (·.line_number) = List.range (parse_json_doc v).length)
    ∧ (∀ pre o post, parse_json_doc v = pre ++ o :: post → isOpenRow o.value = true →
        ∃ body e rest, post = body ++ e :: rest ∧ isEndRow e.value = true
          ∧ e.indent = o.indent ∧ ∀ b ∈ body, o.indent < b.indent)
    ∧ (∀ (o : JsonItem) (post b₁ : List JsonItem) (e₁ : JsonItem) (r₁ : List JsonItem)
        (b₂ : List JsonItem) (e₂ : JsonItem) (r₂ : List JsonItem),
        post = b₁ ++ e₁ :: r₁ → post = b₂ ++ e₂ :: r₂ →
        (∀ x ∈ b₁, o.indent < x.indent) → e₁.indent = o.indent →
        (∀ x ∈ b₂, o.indent < x.indent) → e₂.indent = o.indent →
        b₁ = b₂ ∧ e₁ = e₂ ∧ r₁ = r₂)
    ∧ (∀ pre e post, parse_json_doc v = pre ++ e :: post → isEndRow e.value = true →
        ∃ pre2 o body, pre = pre2 ++ o :: body ∧ isOpenRow o.value = true
          ∧ o.indent = e.indent ∧ ∀ b ∈ body, e.indent < b.indent) := by
  have hforest : Forest 0 (parse_json_doc v) := forest_parse_json_doc v
  refine ⟨?_, ?_, ?_, ?_⟩
  · unfold parse_json_doc
    rw [numberLines_map_line, numberLines_length, List.range_eq_range']
  · intro pre o post heq hop
    obtain ⟨body, e, rest, h1, h2, _, h4, h5⟩ := forest_open_matched hforest pre o post heq hop
    exact ⟨body, e, rest, h1, h2, h4, h5⟩
  · intro o post b₁ e₁ r₁ b₂ e₂ r₂ h1 h2 hb1 he1 hb2 he2
    exact firstCross b₁ e₁ r₁ b₂ e₂ r₂ (h1 ▸ h2) hb1 (le_of_eq he1) hb2 (le_of_eq he2)
  · exact forest_end_matched hforest

/-- Witness for the flattener claim: the root open row of `{"a": {"x": 1}}`
has its matching end. -/
theorem c9_witness :
    ∃ body e rest,
      (parse_json_doc docW).drop 1 = body ++ e :: rest
      ∧ isEndRow e.value = true
      ∧ e.indent = (jsonItemNew none 0 .Object [] 1).indent
      ∧ ∀ b ∈ body, (jsonItemNew none 0 .Object [] 1).indent < b.indent :=
  (c9_flattener docW).2.1 [] (jsonItemNew none 0 .Object [] 1)
    ((parse_json_doc docW).drop 1) (by decide) (by decide)

theorem dspec_zero (l : List JsonItem) : ¬Dspec l 0 := by
  rintro ⟨pre, o, body, e, rest, _, _, _, _, _, _, hlt, _⟩
  omega

theorem dspec_up_cons (a : JsonItem) (l : List JsonItem) (j : Nat) (h : Dspec l j) :
    Dspec (a :: l) (j + 1) := by
  obtain ⟨pre, o, body, e, rest, heq, h1, h2, h3, h4, h5, h6, h7⟩ := h
  exact ⟨a :: pre, o, body, e, rest, by rw [heq]; rfl, h1, h2, h3, h4, h5,
    by simp; omega, by simp; omega⟩

theorem dspec_down_cons (a : JsonItem) (l : List JsonItem) (j : Nat)
    (ha : isOpenRow a.value = false ∨ a.collapsed = false)
    (h : Dspec (a :: l) (j + 1)) : Dspec l j := by
  obtain ⟨pre, o, body, e, rest, heq, h1, h2, h3, h4, h5, h6, h7⟩ := h
  cases pre with
  | nil =>
    simp only [List.nil_append, List.cons.injEq] at heq
    rw [← heq.1] at h1 h2
    rcases ha with ha | ha <;> simp_all
  | cons p pre2 =>
    simp only [List.cons_append, List.cons.injEq] at heq
    simp only [List.length_cons] at h6 h7
    exact ⟨pre2, o, body, e, rest, heq.2, h1, h2, h3, h4, h5, by omega, by omega⟩

theorem dspec_up_body (o : JsonItem) (body : List JsonItem) (e : JsonItem)
    (l : List JsonItem) (j : Nat) (h : Dspec body j) :
    Dspec (o :: (body ++ e :: l)) (j + 1) := by
  obtain ⟨pre, o2, body2, e2, rest2, heq, h1, h2, h3, h4, h5, h6, h7⟩ := h
  refine ⟨o :: pre, o2, body2, e2, rest2 ++ e :: l, ?_, h1, h2, h3, h4, h5,
    by simp; omega, by simp; omega⟩
  rw [heq]
  simp

theorem dspec_up_rest (o : JsonItem) (body : List JsonItem) (e : JsonItem)
    (l : List JsonItem) (j : Nat) (h : Dspec l j) :
    Dspec (o :: (body ++ e :: l)) (j + body.length + 2) := by
  obtain ⟨pre, o2, body2, e2, rest2, heq, h1, h2, h3, h4, h5, h6, h7⟩ := h
  refine ⟨o :: (body ++ e :: pre), o2, body2, e2, rest2, ?_, h1, h2, h3, h4, h5,
    by simp; omega, by simp; omega⟩
  rw [heq]
  simp

theorem dspec_self {d : Nat} (o : JsonItem) (body : List JsonItem) (e : JsonItem)
    (l : List JsonItem) (ho : o.indent = d) (hoo : isOpenRow o.value = true)
    (hocol : o.collapsed = true) (he : e.indent = d) (hee : isEndRow e.value = true)
    (hfb : Forest (d + 1) body) (j : Nat) (hj1 : 1 ≤ j) (hj2 : j ≤ body.length + 1) :
    Dspec (o :: (body ++ e :: l)) j := by
  refine ⟨[], o, body, e, l, rfl, hoo, hocol, hee, by rw [he, ho], ?_, by simpa using hj1,
    by simp; omega⟩
  intro b hb
  have := forest_indent_ge hfb b hb
  omega

theorem span_split {d : Nat} (o : JsonItem) (body : List JsonItem) (e : JsonItem)
    (l : List JsonItem) (ho : o.indent = d) (he : e.indent = d)
    (hee : isEndRow e.value = true) (hfb : Forest (d + 1) body)
    (pre2 : List JsonItem) (o2 : JsonItem) (body2 : List JsonItem) (e2 : JsonItem)
    (rest2 : List JsonItem)
    (heq : o :: (body ++ e :: l) = pre2 ++ o2 :: (body2 ++ e2 :: rest2))
    (ho2 : isOpenRow o2.value = true)
    (hb2 : ∀ x ∈ body2, o2.indent < x.indent)
    (he2 : e2.indent = o2.indent) :
    (pre2 = [] ∧ o2 = o ∧ body2 = body ∧ e2 = e ∧ rest2 = l)
    ∨ (∃ pb mr, pre2 = o :: pb ∧ body = pb ++ o2 :: (body2 ++ e2 :: mr)
        ∧ rest2 = mr ++ e :: l)
    ∨ (∃ c, pre2 = o :: (body ++ e :: c) ∧ l = c ++ o2 :: (body2 ++ e2 :: rest2)) := by
  cases pre2 with
  | nil =>
    simp only [List.nil_append, List.cons.injEq] at heq
    obtain ⟨hoe, htail⟩ := heq
    have hbody : ∀ x ∈ body, d < x.indent := by
      intro x hx
      have := forest_indent_ge hfb x hx
      omega
    have hb2d : ∀ x ∈ body2, d < x.indent := by
      intro x hx
      have := hb2 x hx
      rw [← hoe, ho] at this
      omega
    obtain ⟨hb, hev, hr⟩ := firstCross body e l body2 e2 rest2 htail hbody
      (le_of_eq he) hb2d (by rw [he2, ← hoe]; omega)
    exact Or.inl ⟨rfl, hoe.symm, hb.symm, hev.symm, hr.symm⟩
  | cons p pre3 =>
    simp only [List.cons_append, List.cons.injEq] at heq
    obtain ⟨hop, htail⟩ := heq
    rcases List.append_eq_append_iff.mp htail with ⟨a, ha1, ha2⟩ | ⟨c, hc1, hc2⟩
    · cases a with
      | nil =>
        simp only [List.nil_append, List.cons.injEq] at ha2
        have hcontra : isEndRow o2.value = true := ha2.1 ▸ hee
        rw [open_not_end ho2] at hcontra
        exact absurd hcontra (by simp)
      | cons x a2 =>
        simp only [List.cons_append, List.cons.injEq] at ha2
        obtain ⟨hex, hl⟩ := ha2
        refine Or.inr (Or.inr ⟨a2, ?_, hl⟩)
        rw [hop, ha1, ← hex]
    · cases c with
      | nil =>
        simp only [List.nil_append, List.cons.injEq] at hc2
        have hcontra : isEndRow o2.value = true := by rw [hc2.1]; exact hee
        rw [open_not_end ho2] at hcontra
        exact absurd hcontra (by simp)
      | cons x bs =>
        simp only [List.cons_append, List.cons.injEq] at hc2
        obtain ⟨ho2x, hrest⟩ := hc2
        rw [← ho2x] at hc1
        obtain ⟨mb, me, mr, hbs, hmee, _, hmei, hmb⟩ :=
          forest_open_matched hfb pre3 o2 bs hc1 ho2
        have hconv : body2 ++ (e2 :: rest2) = mb ++ (me :: (mr ++ e :: l)) := by
          rw [hrest, hbs]
          simp
        obtain ⟨hb, hev, hr⟩ := firstCross body2 e2 rest2 mb me (mr ++ e :: l) hconv
          hb2 (le_of_eq he2) hmb (le_of_eq hmei)
        refine Or.inr (Or.inl ⟨pre3, mr, by rw [hop], ?_, hr⟩)
        rw [hc1, hbs, hb, hev]

theorem dspec_split {d : Nat} (o : JsonItem) (body : List JsonItem) (e : JsonItem)
    (l : List JsonItem) (ho : o.indent = d) (he : e.indent = d)
    (hee : isEndRow e.value = true) (hfb : Forest (d + 1) body) (j : Nat)
    (h : Dspec (o :: (body ++ e :: l)) j) :
    (o.collapsed = true ∧ 1 ≤ j ∧ j ≤ body.length + 1)
    ∨ (1 ≤ j ∧ j ≤ body.length ∧ Dspec body (j - 1))
    ∨ (body.length + 2 ≤ j ∧ Dspec l (j - (body.length + 2))) := by
  obtain ⟨pre2, o2, body2, e2, rest2, heq, h1, h2, h3, h4, h5, h6, h7⟩ := h
  rcases span_split o body e l ho he hee hfb pre2 o2 body2 e2 rest2 heq h1 h5 h4 with
    ⟨hp, hoe, hbb, hev, hrr⟩ | ⟨pb, mr, hp, hbody, hrest⟩ | ⟨c, hp, hl⟩
  · subst hp
    left
    rw [← hoe, ← hbb]
    simp only [List.length_nil] at h6 h7
    exact ⟨h2, by omega, by omega⟩
  · subst hp
    right
    left
    have hlen : body.length = pb.length + body2.length + mr.length + 2 := by
      rw [hbody]
      simp
      omega
    simp only [List.length_cons] at h6 h7
    refine ⟨by omega, by omega, pb, o2, body2, e2, mr, hbody, h1, h2, h3, h4, h5,
      by omega, by omega⟩
  · subst hp
    right
    right
    simp only [List.length_cons, List.length_append] at h6 h7
    refine ⟨by omega, c, o2, body2, e2, rest2, hl, h1, h2, h3, h4, h5, by omega, by omega⟩

theorem visPass_forest {d : Nat} {l : List JsonItem} (hf : Forest d l) :
    (visPassFrom none l).2 = none
    ∧ ∀ j, j < l.length →
        (((visPassFrom none l).1[j]?.map (·.visible) = some false) ↔ Dspec l j) := by
  induction hf with
  | nil =>
    refine ⟨rfl, ?_⟩
    intro j hj
    simp at hj
  | scalar d it l2 hind hsc hcol hfl ih =>
    obtain ⟨ihs, ihp⟩ := ih
    have hpass : visPassFrom none (it :: l2)
        = ({ it with visible := true } :: (visPassFrom none l2).1,
           (visPassFrom none l2).2) := by
      rw [visPass_cons_none]
      simp [hcol]
    refine ⟨by rw [hpass]; exact ihs, ?_⟩
    intro j hj
    rw [hpass]
    cases j with
    | zero =>
      exact iff_of_false (by simp) (dspec_zero _)
    | succ j2 =>
      simp only [List.getElem?_cons_succ]
      have hj2 : j2 < l2.length := by simpa using hj
      exact (ihp j2 hj2).trans
        ⟨dspec_up_cons it l2 j2, dspec_down_cons it l2 j2 (Or.inl (scalar_not_open hsc))⟩
  | container d o body e l2 ho hoo he hee hec hfb hfl ihb ihl =>
    obtain ⟨ihbs, ihbp⟩ := ihb
    obtain ⟨ihls, ihlp⟩ := ihl
    have hne : ∀ x ∈ body, x.indent ≠ o.indent := by
      intro x hx
      have := forest_indent_ge hfb x hx
      omega
    have hSe : (if e.indent = o.indent then (none : Option Nat) else some o.indent) = none := by
      rw [he, ho]
      simp
    have htotal : (o :: (body ++ e :: l2)).length = body.length + l2.length + 2 := by
      simp
      omega
    by_cases hocol : o.collapsed
    · -- collapsed container: body and end row suppressed
      have hpass : visPassFrom none (o :: (body ++ e :: l2))
          = ({ o with visible := true }
              :: ((body.map fun x => { x with visible := false })
                ++ ({ e with visible := false } :: (visPassFrom none l2).1)),
             (visPassFrom none l2).2) := by
        rw [visPass_cons_none]
        simp only [hocol, if_true]
        rw [visPass_append, visPass_suppressed o.indent body hne, visPass_cons_some, hSe]
      refine ⟨by rw [hpass]; exact ihls, ?_⟩
      intro j hj
      rw [hpass]
      cases j with
      | zero =>
        exact iff_of_false (by simp) (dspec_zero _)
      | succ j2 =>
        simp only [List.getElem?_cons_succ, List.getElem?_append, List.length_map]
        rcases Nat.lt_or_ge j2 body.length with hB | hB
        · rw [if_pos hB]
          refine iff_of_true ?_ ?_
          · rw [List.getElem?_map, List.getElem?_eq_getElem hB]
            simp
          · exact dspec_self o body e l2 ho hoo hocol he hee hfb (j2 + 1)
              (by omega) (by omega)
        · rw [if_neg (by omega)]
          rcases Nat.eq_or_lt_of_le hB with hB2 | hB2
          · have hz : j2 - body.length = 0 := by omega
            rw [hz]
            refine iff_of_true (by simp) ?_
            exact dspec_self o body e l2 ho hoo hocol he hee hfb (j2 + 1)
              (by omega) (by omega)
          · have hj2 : j2 - body.length - 1 < l2.length := by omega
            have hstep : j2 - body.length = (j2 - body.length - 1) + 1 := by omega
            rw [hstep]
            simp only [List.getElem?_cons_succ]
            refine (ihlp (j2 - body.length - 1) hj2).trans ⟨?_, ?_⟩
            · intro hD
              have := dspec_up_rest o body e l2 (j2 - body.length - 1) hD
              have harith : j2 - body.length - 1 + body.length + 2 = j2 + 1 := by omega
              rwa [harith] at this
            · intro hD
              rcases dspec_split o body e l2 ho he hee hfb (j2 + 1) hD with
                ⟨_, _, hb⟩ | ⟨_, hb, _⟩ | ⟨_, hD2⟩
              · omega
              · omega
              · have harith : j2 + 1 - (body.length + 2) = j2 - body.length - 1 := by omega
                rwa [harith] at hD2
    · -- expanded container: recurse into the body, the end row stays visible
      have hocolf : o.collapsed = false := by
        cases hc : o.collapsed
        · rfl
        · exact absurd hc hocol
      have hpass : visPassFrom none (o :: (body ++ e :: l2))
          = ({ o with visible := true }
              :: ((visPassFrom none body).1
                ++ ({ e with visible := true } :: (visPassFrom none l2).1)),
             (visPassFrom none l2).2) := by
        rw [visPass_cons_none]
        simp only [hocolf, Bool.false_eq_true, if_false]
        rw [visPass_append, ihbs, visPass_cons_none]
        simp [hec]
      refine ⟨by rw [hpass]; exact ihls, ?_⟩
      intro j hj
      rw [hpass]
      cases j with
      | zero =>
        exact iff_of_false (by simp) (dspec_zero _)
      | succ j2 =>
        have hlenB : (visPassFrom none body).1.length = body.length := visPass_length _ _
        simp only [List.getElem?_cons_succ, List.getElem?_append, hlenB]
        rcases Nat.lt_or_ge j2 body.length with hB | hB
        · rw [if_pos hB]
          refine (ihbp j2 hB).trans ⟨?_, ?_⟩
          · intro hD
            exact dspec_up_body o body e l2 j2 hD
          · intro hD
            rcases dspec_split o body e l2 ho he hee hfb (j2 + 1) hD with
              ⟨hc, _, _⟩ | ⟨_, _, hD2⟩ | ⟨hge, _⟩
            · rw [hocolf] at hc
              exact absurd hc (by simp)
            · simpa using hD2
            · omega
        · rw [if_neg (by omega)]
          rcases Nat.eq_or_lt_of_le hB with hB2 | hB2
          · have hz : j2 - body.length = 0 := by omega
            rw [hz]
            refine iff_of_false (by simp) ?_
            intro hD
            rcases dspec_split o body e l2 ho he hee hfb (j2 + 1) hD with
              ⟨hc, _, _⟩ | ⟨_, hb, _⟩ | ⟨hge, _⟩
            · rw [hocolf] at hc
              exact absurd hc (by simp)
            · omega
            · omega
          · have hj2 : j2 - body.length - 1 < l2.length := by omega
            have hstep : j2 - body.length = (j2 - body.length - 1) + 1 := by omega
            rw [hstep]
            simp only [List.getElem?_cons_succ]
            refine (ihlp (j2 - body.length - 1) hj2).trans ⟨?_, ?_⟩
            · intro hD
              have := dspec_up_rest o body e l2 (j2 - body.length - 1) hD
              have harith : j2 - body.length - 1 + body.length + 2 = j2 + 1 := by omega
              rwa [harith] at this
            · intro hD
              rcases dspec_split o body e l2 ho he hee hfb (j2 + 1) hD with
                ⟨hc, _, _⟩ | ⟨_, hb, _⟩ | ⟨_, hD2⟩
              · rw [hocolf] at hc
                exact absurd hc (by simp)
              · omega
              · have harith : j2 + 1 - (body.length + 2) = j2 - body.length - 1 := by omega
                rwa [harith] at hD2

/-- Claim C5, confirmed: after `recalculate_visible` runs on a well-formed
row sequence (flattener shape, `collapsed` set only on container-open rows),
row `j` has `visible = false` iff some collapsed container-open row spans it:
`j` is one of the body positions strictly inside that container's span, or the
position of the container's own matching end row (`pre.length + body.length
+ 1`), which is exactly the claim's rule including its addition for the
collapsed container's own end marker; every other row keeps `visible =
true`. -/
theorem c5_visibility (st : AppState) (hf : Forest 0 st.items) (j : Nat)
    (hj : j < st.items.length) :
    (((recalculate_visible st).items[j]?.map (·.visible)) = some false)
      ↔ Dspec st.items j :=
  (visPass_forest hf).2 j hj

theorem wItems_forest : Forest 0 wItems := by
  have h2 : Forest 2 [mkRow (some "x") 2 (.Number (strOf "1")) 2 false "a ▶ x"] :=
    Forest.scalar 2 _ [] rfl rfl rfl (Forest.nil 2)
  have h1 : Forest 1 [mkRow (some "a") 1 .Object 1 true "a",
      mkRow (some "x") 2 (.Number (strOf "1")) 2 false "a ▶ x",
      mkRow none 1 .ObjectEnd 3 false "a"] :=
    Forest.container 1 (mkRow (some "a") 1 .Object 1 true "a")
      [mkRow (some "x") 2 (.Number (strOf "1")) 2 false "a ▶ x"]
      (mkRow none 1 .ObjectEnd 3 false "a") [] rfl rfl rfl rfl rfl h2 (Forest.nil 1)
  exact Forest.container 0 (mkRow none 0 .Object 0 false "")
    [mkRow (some "a") 1 .Object 1 true "a",
     mkRow (some "x") 2 (.Number (strOf "1")) 2 false "a ▶ x",
     mkRow none 1 .ObjectEnd 3 false "a"]
    (mkRow none 0 .ObjectEnd 4 false "") [] rfl rfl rfl rfl rfl h1 (Forest.nil 0)

/-- Witness for the visibility claim on `{"a": {"x": 1}}` with `"a"`
collapsed, at the position of the hidden scalar row of `"x"`. -/
theorem c5_witness :
    (((recalculate_visible stC5w).items[2]?.map (·.visible)) = some false)
      ↔ Dspec stC5w.items 2 :=
  c5_visibility stC5w wItems_forest 2 (by decide)

theorem set_self_of_getElem {α : Type} (l : List α) :
    ∀ (i : Nat) (v : α), l[i]? = some v → l.set i v = l := by
  induction l with
  | nil => intro i v h; simp at h
  | cons a rest ih =>
    intro i v h
    cases i with
    | zero =>
      simp only [List.getElem?_cons_zero, Option.some.injEq] at h
      rw [List.set_cons_zero, h]
    | succ i2 =>
      simp only [List.getElem?_cons_succ] at h
      rw [List.set_cons_succ, ih i2 v h]

theorem take_set {α : Type} (l : List α) :
    ∀ (i : Nat) (v : α), (l.set i v).take i = l.take i := by
  induction l with
  | nil => intro i v; simp
  | cons a rest ih =>
    intro i v
    cases i with
    | zero => simp
    | succ i2 => simp [List.set_cons_succ, ih i2 v]

theorem countP_congr_of_map_eq (p : JsonItem → Bool) (l₁ l₂ : List JsonItem)
    (h : l₁.map p = l₂.map p) : l₁.countP p = l₂.countP p := by
  induction l₁ generalizing l₂ with
  | nil =>
    cases l₂ with
    | nil => rfl
    | cons b t => simp at h
  | cons a t ih =>
    cases l₂ with
    | nil => simp at h
    | cons b t2 =>
      simp only [List.map_cons, List.cons.injEq] at h
      rw [List.countP_cons, List.countP_cons, h.1, ih t2 h.2]

theorem filter_getElem_ex (l : List JsonItem) (p : JsonItem → Bool) :
    ∀ (s : Nat) (x : JsonItem), (l.filter p)[s]? = some x →
      ∃ m, m < l.length ∧ l[m]? = some x ∧ p x = true
        ∧ s = List.countP p (l.take m) := by
  induction l with
  | nil => intro s x h; simp at h
  | cons a rest ih =>
    intro s x h
    by_cases hp : p a
    · rw [List.filter_cons_of_pos hp] at h
      cases s with
      | zero =>
        simp only [List.getElem?_cons_zero, Option.some.injEq] at h
        exact ⟨0, by simp, by simp [h], h ▸ hp, by simp⟩
      | succ s2 =>
        simp only [List.getElem?_cons_succ] at h
        obtain ⟨m, hm, hx, hpx, hs⟩ := ih s2 x h
        refine ⟨m + 1, by simpa using hm, by simpa using hx, hpx, ?_⟩
        simp [List.countP_cons, hp, hs]
    · rw [List.filter_cons_of_neg hp] at h
      obtain ⟨m, hm, hx, hpx, hs⟩ := ih s x h
      refine ⟨m + 1, by simpa using hm, by simpa using hx, hpx, ?_⟩
      simp [List.countP_cons, hp, hs]

theorem filter_getElem_of_countP (l : List JsonItem) (p : JsonItem → Bool) :
    ∀ (m : Nat) (x : JsonItem), l[m]? = some x → p x = true →
      (l.filter p)[List.countP p (l.take m)]? = some x := by
  induction l with
  | nil => intro m x h; simp at h
  | cons a rest ih =>
    intro m x h hp
    cases m with
    | zero =>
      simp only [List.getElem?_cons_zero, Option.some.injEq] at h
      subst h
      rw [List.filter_cons_of_pos hp]
      simp
    | succ m2 =>
      simp only [List.getElem?_cons_succ] at h
      by_cases hpa : p a
      · rw [List.filter_cons_of_pos hpa]
        have : List.countP p ((a :: rest).take (m2 + 1)) = List.countP p (rest.take m2) + 1 := by
          simp [List.countP_cons, hpa]
        rw [this]
        simpa using ih m2 x h hp
      · rw [List.filter_cons_of_neg hpa]
        have : List.countP p ((a :: rest).take (m2 + 1)) = List.countP p (rest.take m2) := by
          simp [List.countP_cons, hpa]
        rw [this]
        exact ih m2 x h hp

theorem walkContainer_here (items : List JsonItem) (i : Nat)
    (h : isContOpen items[i]? = true) : walkContainer items i = some i := by
  cases i <;> simp [walkContainer, h]

theorem walkContainer_skip (items : List JsonItem) :
    ∀ (k i : Nat), i ≤ k →
      (∀ m, i < m → m ≤ k → isContOpen items[m]? = false) →
      walkContainer items k = walkContainer items i := by
  intro k
  induction k with
  | zero =>
    intro i hi _
    interval_cases i
    rfl
  | succ k2 ih =>
    intro i hi hskip
    rcases Nat.eq_or_lt_of_le hi with heq | hlt
    · rw [heq]
    · have hno : isContOpen items[(k2 + 1)]? = false := hskip (k2 + 1) hlt (le_refl _)
      rw [show walkContainer items (k2 + 1)
          = if isContOpen items[(k2 + 1)]? then some (k2 + 1) else walkContainer items k2
        from rfl, hno]
      simp only [Bool.false_eq_true, if_false]
      exact ih i (by omega) fun m hm1 hm2 => hskip m hm1 (by omega)

theorem bottom_index_le (st : AppState) (hh : 2 ≤ st.list_height) :
    bottom_index st ≤ st.visible_items.length := by
  simp only [bottom_index]
  rw [if_neg (by omega)]
  exact min_le_right _ _

theorem scroll_invariant (st : AppState) (sel : Nat) (hsel : st.selected = some sel)
    (hlen : sel < st.visible_items.length) (hh : 2 ≤ st.list_height) :
    (recalculate_scroll_position st).top_index ≤ sel
    ∧ sel < bottom_index (recalculate_scroll_position st) := by
  have hmax : ∀ a : Int, (max a 0).toNat = a.toNat := by
    intro a
    rcases le_total a 0 with h | h
    · simp [max_eq_right h, Int.toNat_of_nonpos h]
    · simp [max_eq_left h]
  unfold recalculate_scroll_position
  rw [hsel]
  simp only [bottom_index]
  split_ifs with h1 h2 h3 h4 h5 <;>
    simp_all [bottom_index] <;>
    omega

theorem recalcScroll_fields (st : AppState) :
    (recalculate_scroll_position st).items = st.items
    ∧ (recalculate_scroll_position st).visible_items = st.visible_items
    ∧ (recalculate_scroll_position st).selected = st.selected
    ∧ (recalculate_scroll_position st).list_height = st.list_height
    ∧ (recalculate_scroll_position st).search_state = st.search_state
    ∧ (recalculate_scroll_position st).search_input = st.search_input
    ∧ (recalculate_scroll_position st).num_items_in_file = st.num_items_in_file := by
  unfold recalculate_scroll_position
  cases hsel : st.selected with
  | none => exact ⟨rfl, rfl, hsel, rfl, rfl, rfl, rfl⟩
  | some sel =>
    dsimp only
    split_ifs <;>
      refine ⟨rfl, rfl, ?_, rfl, rfl, rfl, rfl⟩ <;>
      first
        | rfl
        | exact hsel

theorem clearSel_applySelectionLevel (b : Str) (it : JsonItem) :
    clearSel (applySelectionLevel b it) = clearSel it := by
  unfold applySelectionLevel clearSel
  split_ifs <;> rfl

theorem enumFrom_map_clearSel (g : Nat × JsonItem → JsonItem)
    (hg : ∀ p, clearSel (g p) = clearSel p.2) :
    ∀ (l : List JsonItem) (n : Nat),
      ((List.enumFrom n l).map g).map clearSel = l.map clearSel := by
  intro l
  induction l with
  | nil => intro n; rfl
  | cons it rest ih =>
    intro n
    simp only [List.enumFrom, List.map_cons, hg ((n, it)), ih (n + 1)]

theorem recalcSelLevel_some (st : AppState)
    (h : ∀ sel, st.selected = some sel →
      ∃ x, st.visible_items[sel]? = some x ∧ x.line_number < st.items.length
        ∧ st.top_index ≤ bottom_index st ∧ bottom_index st ≤ st.visible_items.length) :
    ∃ st2, recalculate_selection_level st = some st2
      ∧ st2.items = st.items
      ∧ st2.selected = st.selected
      ∧ st2.top_index = st.top_index
      ∧ st2.list_height = st.list_height
      ∧ st2.search_state = st.search_state
      ∧ st2.search_input = st.search_input
      ∧ st2.num_items_in_file = st.num_items_in_file
      ∧ st2.visible_items.map clearSel = st.visible_items.map clearSel := by
  cases hsel : st.selected with
  | none =>
    exact ⟨st, by simp only [recalculate_selection_level, hsel], rfl, hsel, rfl, rfl,
      rfl, rfl, rfl, rfl⟩
  | some sel =>
    obtain ⟨x, hx, hxlen, hg1, hg2⟩ := h sel hsel
    obtain ⟨y, hy⟩ : ∃ y, st.items[x.line_number]? = some y :=
      ⟨_, List.getElem?_eq_getElem hxlen⟩
    unfold recalculate_selection_level
    rw [hsel]
    dsimp only
    rw [hx]
    dsimp only
    rw [hy]
    dsimp only
    rw [if_pos ⟨hg1, hg2⟩]
    refine ⟨_, rfl, rfl, rfl, rfl, rfl, rfl, rfl, rfl, ?_⟩
    refine enumFrom_map_clearSel _ ?_ st.visible_items 0
    intro p
    dsimp only
    split_ifs with hw
    · exact clearSel_applySelectionLevel _ _
    · rfl

theorem select_index_spec (st : AppState) (i : Nat)
    (hi : i < st.visible_items.length)
    (hlni : ∀ x, st.visible_items[i]? = some x → x.line_number < st.items.length)
    (hh : 2 ≤ st.list_height) :
    ∃ st2, select_index st i = some st2
      ∧ st2.items = st.items
      ∧ st2.visible_items.map clearSel = st.visible_items.map clearSel
      ∧ st2.selected = some i
      ∧ st2.top_index ≤ i
      ∧ st2.list_height = st.list_height
      ∧ st2.search_state = st.search_state
      ∧ st2.search_input = st.search_input
      ∧ st2.num_items_in_file = st.num_items_in_file := by
  obtain ⟨hfi, hfv, hfsel, hfh, hfst, hfin, hfnum⟩ :=
    recalcScroll_fields { st with selected := some i }
  have hinv := scroll_invariant { st with selected := some i } i rfl hi hh
  have harg : ∀ sel,
      (recalculate_scroll_position { st with selected := some i }).selected = some sel →
      ∃ x, (recalculate_scroll_position { st with selected := some i }).visible_items[sel]?
            = some x
        ∧ x.line_number
            < (recalculate_scroll_position { st with selected := some i }).items.length
        ∧ (recalculate_scroll_position { st with selected := some i }).top_index
            ≤ bottom_index (recalculate_scroll_position { st with selected := some i })
        ∧ bottom_index (recalculate_scroll_position { st with selected := some i })
            ≤ (recalculate_scroll_position { st with selected := some i }).visible_items.length := by
    intro sel hs
    have hs2 : some i = some sel := by rw [← hs, hfsel]
    obtain rfl : i = sel := by injection hs2
    refine ⟨st.visible_items[i], ?_, ?_, ?_, ?_⟩
    · rw [hfv]
      exact List.getElem?_eq_getElem hi
    · rw [hfi]
      exact hlni _ (List.getElem?_eq_getElem hi)
    · exact le_of_lt (lt_of_le_of_lt hinv.1 hinv.2)
    · exact bottom_index_le _ (by rw [hfh]; exact hh)
  obtain ⟨st2, he, h1, h2, h3, h4, h5, h6, h7, h8⟩ :=
    recalcSelLevel_some (recalculate_scroll_position { st with selected := some i }) harg
  exact ⟨st2, he, by rw [h1, hfi], by rw [h8, hfv], by rw [h2, hfsel],
    by rw [h3]; exact hinv.1, by rw [h4, hfh], by rw [h5, hfst],
    by rw [h6, hfin], by rw [h7, hfnum]⟩

/-- An index holding an element is in bounds. -/
theorem getElem_some_lt {α : Type} (l : List α) (j : Nat) (a : α) (h : l[j]? = some a) :
    j < l.length :=
  (List.getElem?_eq_some.mp h).1

/-- When the `line_number` column is `0, 1, 2, …`, the row at a position
carries that position. -/
theorem map_range_getElem (l : List JsonItem)
    (h : l.map (fun it => it.line_number) = List.range l.length) (j : Nat) (r : JsonItem)
    (hr : l[j]? = some r) : r.line_number = j := by
  have hj : j < l.length := getElem_some_lt l j r hr
  have h1 : (l.map fun it => it.line_number)[j]? = some r.line_number := by
    rw [List.getElem?_map, hr]
    rfl
  rw [h, List.getElem?_range hj] at h1
  exact (Option.some_inj.mp h1).symm

/-- Taking a prefix commutes with the visibility pass. -/
theorem visPass_take (s : Option Nat) (l : List JsonItem) (k : Nat) :
    (visPassFrom s l).1.take k = (visPassFrom s (l.take k)).1 := by
  induction l generalizing s k with
  | nil => cases s <;> simp [visPassFrom]
  | cons it rest ih =>
    cases k with
    | zero => cases s <;> simp [visPassFrom]
    | succ k2 =>
      cases s with
      | none =>
        rw [List.take_succ_cons, visPass_cons_none, visPass_cons_none]
        simp only [List.take_succ_cons, ih]
      | some d =>
        rw [List.take_succ_cons, visPass_cons_some, visPass_cons_some]
        simp only [List.take_succ_cons, ih]

/-- Flipping a collapsed flag keeps the length. -/
theorem flip_length (l : List JsonItem) (i : Nat) :
    (flipCollapsedAt l i).length = l.length := by
  unfold flipCollapsedAt
  cases h : l[i]? <;> simp

/-- Flipping at `i` leaves the first `i` rows untouched. -/
theorem flip_take_eq (l : List JsonItem) (i : Nat) :
    (flipCollapsedAt l i).take i = l.take i := by
  unfold flipCollapsedAt
  cases h : l[i]? with
  | none => rfl
  | some it => exact take_set l i _

/-- Flipping a collapsed flag preserves any field other than `collapsed`. -/
theorem flip_map_field {α : Type} (f : JsonItem → α)
    (hf : ∀ it b, f { it with collapsed := b } = f it) (l : List JsonItem) (i : Nat) :
    (flipCollapsedAt l i).map f = l.map f := by
  unfold flipCollapsedAt
  cases h : l[i]? with
  | none => rfl
  | some it =>
    rw [List.map_set, hf]
    refine set_self_of_getElem (l.map f) i (f it) ?_
    rw [List.getElem?_map, h]
    rfl

/-- The flipped row, read back. -/
theorem flip_getElem_self (l : List JsonItem) (i : Nat) (it : JsonItem)
    (h : l[i]? = some it) :
    (flipCollapsedAt l i)[i]? = some { it with collapsed := !it.collapsed } := by
  unfold flipCollapsedAt
  rw [h]
  dsimp only
  rw [List.getElem?_set, if_pos rfl, if_pos (getElem_some_lt l i it h)]

/-- The visibility the pass assigns to a row depends only on the suppression
state reached after its predecessors, never on the row itself. -/
theorem visPass_vis_append (l₁ l₂ : List JsonItem) (it : JsonItem) :
    ((visPassFrom none (l₁ ++ it :: l₂)).1.map (fun r => r.visible))[l₁.length]?
      = some (visPassFrom none l₁).2.isNone := by
  rw [visPass_append]
  dsimp only
  rw [List.map_append, List.getElem?_append]
  have hlen : ((visPassFrom none l₁).1.map fun r => r.visible).length = l₁.length := by
    rw [List.length_map, visPass_length]
  rw [if_neg (by omega), hlen, Nat.sub_self]
  cases hs : (visPassFrom none l₁).2 with
  | none => rw [visPass_cons_none]; simp
  | some d => rw [visPass_cons_some]; simp

/-- Row `i`'s assigned visibility equals the suppression state after the
first `i` rows being off. -/
theorem visPass_vis_at (l : List JsonItem) (i : Nat) (it : JsonItem) (h : l[i]? = some it) :
    ((visPassFrom none l).1.map (fun r => r.visible))[i]?
      = some (visPassFrom none (l.take i)).2.isNone := by
  have hi : i < l.length := getElem_some_lt l i it h
  have hit : l[i] = it := by
    rw [List.getElem?_eq_getElem hi] at h
    exact Option.some_inj.mp h
  have hdecomp : l = l.take i ++ it :: l.drop (i + 1) := by
    have h2 := List.take_append_drop i l
    rw [List.drop_eq_getElem_cons hi, hit] at h2
    exact h2.symm
  have hlt : (l.take i).length = i := by
    rw [List.length_take]
    omega
  calc ((visPassFrom none l).1.map fun r => r.visible)[i]?
      = ((visPassFrom none (l.take i ++ it :: l.drop (i + 1))).1.map
          fun r => r.visible)[(l.take i).length]? := by rw [← hdecomp, hlt]
    _ = some (visPassFrom none (l.take i)).2.isNone := visPass_vis_append _ _ _

/-- Counting visible rows over a window all of whose rows are visible. -/
theorem countP_take_of_all (l : List JsonItem) (i k : Nat) (hik : i ≤ k) (hk : k ≤ l.length)
    (hall : ∀ m r, i ≤ m → m < k → l[m]? = some r → r.visible = true) :
    List.countP (fun r => r.visible) (l.take k)
      = List.countP (fun r => r.visible) (l.take i) + (k - i) := by
  have hsplit : l.take k = l.take i ++ (l.drop i).take (k - i) := by
    rw [← List.take_add]
    congr 1
    omega
  rw [hsplit, List.countP_append]
  congr 1
  have hlen : ((l.drop i).take (k - i)).length = k - i := by
    rw [List.length_take, List.length_drop]
    omega
  have hcnt : List.countP (fun r => r.visible) ((l.drop i).take (k - i))
      = ((l.drop i).take (k - i)).length := by
    refine List.countP_eq_length.mpr ?_
    intro a ha
    obtain ⟨n, hn⟩ := List.mem_iff_getElem?.mp ha
    rw [List.getElem?_take] at hn
    by_cases hnk : n < k - i
    · rw [if_pos hnk, List.getElem?_drop] at hn
      exact hall (i + n) a (by omega) (by omega) hn
    · rw [if_neg hnk] at hn
      exact absurd hn (by simp)
  rw [hcnt, hlen]

/-- Pointwise reading of an all-visible window. -/
theorem all_slice_pointwise (l : List JsonItem) (i n : Nat)
    (h : ((l.drop i).take n).all (fun r => r.visible) = true) :
    ∀ m r, i ≤ m → m < i + n → l[m]? = some r → r.visible = true := by
  intro m r him hmn hr
  refine List.all_eq_true.mp h r (List.mem_iff_getElem?.mpr ⟨m - i, ?_⟩)
  rw [List.getElem?_take, if_pos (by omega), List.getElem?_drop,
    show i + (m - i) = m by omega]
  exact hr

/-- A one-row window over a visible row is all visible. -/
theorem singleton_slice_all (l : List JsonItem) (k : Nat)
    (h : (l[k]?.map fun r => r.visible) = some true) :
    ((l.drop k).take (k + 1 - k)).all (fun r => r.visible) = true := by
  obtain ⟨x, hx, hvx⟩ := Option.map_eq_some'.mp h
  have hk : k < l.length := getElem_some_lt l k x hx
  have hget : l[k] = x := by
    rw [List.getElem?_eq_getElem hk] at hx
    exact Option.some_inj.mp hx
  rw [show k + 1 - k = 1 by omega, List.drop_eq_getElem_cons hk, hget]
  simp [hvx]

/-- What a visible-sequence entry says about the master list, under the
filter consistency and the position-numbering invariants. -/
theorem vis_getElem_facts (st : AppState)
    (hvisc : st.visible_items.map clearSel
      = (st.items.filter (fun r => r.visible)).map clearSel)
    (hln : st.items.map (fun it => it.line_number) = List.range st.items.length)
    (j : Nat) (y : JsonItem) (hy : st.visible_items[j]? = some y) :
    y.line_number < st.items.length
    ∧ j = List.countP (fun r => r.visible) (st.items.take y.line_number)
    ∧ (st.items[y.line_number]?.map fun r => r.visible) = some true := by
  have h1 : (st.visible_items.map clearSel)[j]? = some (clearSel y) := by
    rw [List.getElem?_map, hy]
    rfl
  rw [hvisc, List.getElem?_map] at h1
  obtain ⟨w, hw, hwc⟩ := Option.map_eq_some'.mp h1
  obtain ⟨m, hm, hmw, hpw, hcnt⟩ := filter_getElem_ex st.items (fun r => r.visible) j w hw
  have hline : w.line_number = m := map_range_getElem st.items hln m w hmw
  have hlyw : y.line_number = w.line_number :=
    (congrArg JsonItem.line_number hwc).symm
  rw [hlyw, hline]
  exact ⟨hm, hcnt, by rw [hmw]; exact congrArg some hpw⟩

/-- A flip is a `set` of the flipped row. -/
theorem flip_eq_set (l : List JsonItem) (i : Nat) (it : JsonItem) (h : l[i]? = some it) :
    flipCollapsedAt l i = l.set i { it with collapsed := !it.collapsed } := by
  unfold flipCollapsedAt
  rw [h]

/-- Flipping a row, running the pass, and flipping the same row again
restores every row's `(indent, collapsed)` data. -/
theorem flip_flip_ic (l : List JsonItem) (i : Nat) :
    (flipCollapsedAt ((visPassFrom none (flipCollapsedAt l i)).1) i).map
        (fun it => (it.indent, it.collapsed))
      = l.map fun it => (it.indent, it.collapsed) := by
  cases h : l[i]? with
  | none =>
    have h1 : flipCollapsedAt l i = l := by
      unfold flipCollapsedAt
      rw [h]
    have h2 : ((visPassFrom none l).1)[i]? = none := by
      refine List.getElem?_eq_none ?_
      rw [visPass_length]
      by_contra hc
      rw [List.getElem?_eq_getElem (by omega)] at h
      exact Option.noConfusion h
    have h3 : flipCollapsedAt ((visPassFrom none l).1) i = (visPassFrom none l).1 := by
      unfold flipCollapsedAt
      rw [h2]
    rw [h1, h3]
    exact visPass_map_field (fun it2 => (it2.indent, it2.collapsed)) (fun _ _ => rfl) none l
  | some it =>
    have hlen : i < l.length := getElem_some_lt l i it h
    have hBf : ((visPassFrom none (flipCollapsedAt l i)).1).map
          (fun it2 => (it2.indent, it2.collapsed))
        = (flipCollapsedAt l i).map fun it2 => (it2.indent, it2.collapsed) :=
      visPass_map_field (fun it2 => (it2.indent, it2.collapsed)) (fun _ _ => rfl) none
        (flipCollapsedAt l i)
    have hBlen : i < ((visPassFrom none (flipCollapsedAt l i)).1).length := by
      rw [visPass_length, flip_length]
      exact hlen
    obtain ⟨b, hb⟩ : ∃ b, ((visPassFrom none (flipCollapsedAt l i)).1)[i]? = some b :=
      ⟨_, List.getElem?_eq_getElem hBlen⟩
    have h4 : (((visPassFrom none (flipCollapsedAt l i)).1).map
          (fun it2 => (it2.indent, it2.collapsed)))[i]?
        = some (it.indent, !it.collapsed) := by
      rw [hBf, List.getElem?_map, flip_getElem_self l i it h]
      rfl
    have h5 : (((visPassFrom none (flipCollapsedAt l i)).1).map
          (fun it2 => (it2.indent, it2.collapsed)))[i]? = some (b.indent, b.collapsed) := by
      rw [List.getElem?_map, hb]
      rfl
    have hbic : (b.indent, b.collapsed) = (it.indent, !it.collapsed) :=
      Option.some_inj.mp (h5.symm.trans h4)
    have hbi : b.indent = it.indent := congrArg Prod.fst hbic
    have hbc : b.collapsed = !it.collapsed := congrArg Prod.snd hbic
    rw [flip_eq_set _ i b hb, List.map_set]
    have h6 : (({ b with collapsed := !b.collapsed } : JsonItem).indent,
          ({ b with collapsed := !b.collapsed } : JsonItem).collapsed)
        = (it.indent, it.collapsed) := by
      show (b.indent, !b.collapsed) = (it.indent, it.collapsed)
      rw [hbi, hbc, Bool.not_not]
    rw [h6, hBf, flip_eq_set l i it h, List.map_set, List.set_set]
    refine set_self_of_getElem _ i _ ?_
    rw [List.getElem?_map, h]
    rfl

/-- `isContOpen` reads only the `value` column. -/
theorem isContOpen_of_map_value (l₁ l₂ : List JsonItem)
    (h : l₁.map (fun r => r.value) = l₂.map fun r => r.value) (k : Nat) :
    isContOpen l₁[k]? = isContOpen l₂[k]? := by
  have h2 : l₁[k]?.map (fun r => r.value) = l₂[k]?.map fun r => r.value := by
    rw [← List.getElem?_map, ← List.getElem?_map, h]
  cases ha : l₁[k]? with
  | none =>
    rw [ha] at h2
    cases hb : l₂[k]? with
    | none => rfl
    | some b =>
      rw [hb] at h2
      exact Option.noConfusion h2
  | some a =>
    rw [ha] at h2
    cases hb : l₂[k]? with
    | none =>
      rw [hb] at h2
      exact Option.noConfusion h2
    | some b =>
      rw [hb] at h2
      have hv : a.value = b.value := Option.some_inj.mp h2
      show (match a.value with | .Array | .Object => true | _ => false)
        = match b.value with | .Array | .Object => true | _ => false
      rw [hv]

/-- Master specification of a successful `toggle_collapsed` run: from a
consistent state whose selection sits on line `index`, with `i` the nearest
preceding container-open row and every row from `i` to `index` visible, the
operation flips row `i`, recomputes visibility, and re-anchors the selection
to the visible position of row `i`. -/
theorem toggle_spec (st : AppState) (sel index i : Nat)
    (hsel : st.selected = some sel)
    (hx : (st.visible_items[sel]?.map fun r => r.line_number) = some index)
    (hwalk : walkContainer st.items index = some i)
    (hile : i ≤ index)
    (hvisb : ((st.items.drop i).take (index + 1 - i)).all (fun r => r.visible) = true)
    (hln : st.items.map (fun it => it.line_number) = List.range st.items.length)
    (hvisc : st.visible_items.map clearSel
      = (st.items.filter (fun r => r.visible)).map clearSel)
    (hpass : st.items.map (fun r => r.visible)
      = ((visPassFrom none st.items).1).map (fun r => r.visible))
    (hh : 2 ≤ st.list_height) :
    ∃ st2, toggle_collapsed st = some st2
      ∧ st2.items = (visPassFrom none (flipCollapsedAt st.items i)).1
      ∧ st2.visible_items.map clearSel
          = (st2.items.filter (fun r => r.visible)).map clearSel
      ∧ st2.selected = some (sel - (index - i))
      ∧ (st2.visible_items[sel - (index - i)]?.map fun r => (r.line_number, r.visible))
          = some (i, true)
      ∧ (st2.items[i]?.map fun r => r.visible) = some true
      ∧ st2.list_height = st.list_height
      ∧ st2.items.map (fun r => r.line_number) = st.items.map (fun r => r.line_number)
      ∧ st2.items.map (fun r => r.value) = st.items.map (fun r => r.value) := by
  obtain ⟨x, hxe, hxline⟩ := Option.map_eq_some'.mp hx
  obtain ⟨hxlt, hcnt, hvisidx⟩ := vis_getElem_facts st hvisc hln sel x hxe
  rw [hxline] at hxlt hcnt hvisidx
  have hall : ∀ m r, i ≤ m → m ≤ index → st.items[m]? = some r → r.visible = true := by
    intro m r h1 h2 h3
    exact all_slice_pointwise st.items i (index + 1 - i) hvisb m r h1 (by omega) h3
  have hcnt2 : List.countP (fun r => r.visible) (st.items.take index)
      = List.countP (fun r => r.visible) (st.items.take i) + (index - i) :=
    countP_take_of_all st.items i index hile (by omega)
      (fun m r h1 h2 h3 => hall m r h1 (by omega) h3)
  have hdiffle : index - i ≤ sel := by omega
  have hcti : List.countP (fun r => r.visible) (st.items.take i) = sel - (index - i) := by
    omega
  have hPlen : (visPassFrom none (flipCollapsedAt st.items i)).1.length
      = st.items.length := by
    rw [visPass_length, flip_length]
  have hPline : (visPassFrom none (flipCollapsedAt st.items i)).1.map
        (fun r => r.line_number) = st.items.map fun r => r.line_number := by
    rw [visPass_map_field (fun r => r.line_number) (fun _ _ => rfl),
      flip_map_field (fun r => r.line_number) (fun _ _ => rfl)]
  have hPvalue : (visPassFrom none (flipCollapsedAt st.items i)).1.map
        (fun r => r.value) = st.items.map fun r => r.value := by
    rw [visPass_map_field (fun r => r.value) (fun _ _ => rfl),
      flip_map_field (fun r => r.value) (fun _ _ => rfl)]
  have hilt : i < st.items.length := by omega
  obtain ⟨iti, hiti⟩ : ∃ r, st.items[i]? = some r := ⟨_, List.getElem?_eq_getElem hilt⟩
  have hitiv : iti.visible = true := hall i iti (le_refl i) hile hiti
  have hAi : (flipCollapsedAt st.items i)[i]?
      = some { iti with collapsed := !iti.collapsed } :=
    flip_getElem_self st.items i iti hiti
  have hvisP_i : ((visPassFrom none (flipCollapsedAt st.items i)).1.map
        (fun r => r.visible))[i]? = some true := by
    rw [visPass_vis_at (flipCollapsedAt st.items i) i _ hAi, flip_take_eq]
    have h7 := visPass_vis_at st.items i iti hiti
    rw [← hpass, List.getElem?_map, hiti] at h7
    have h8 : some iti.visible
        = some (visPassFrom none (st.items.take i)).2.isNone := h7
    rw [hitiv] at h8
    exact h8.symm
  have hcntP : List.countP (fun r => r.visible)
        ((visPassFrom none (flipCollapsedAt st.items i)).1.take i)
      = List.countP (fun r => r.visible) (st.items.take i) := by
    refine countP_congr_of_map_eq _ _ _ ?_
    rw [visPass_take, flip_take_eq, ← visPass_take, List.map_take, List.map_take,
      ← hpass]
  obtain ⟨b, hb⟩ : ∃ b, (visPassFrom none (flipCollapsedAt st.items i)).1[i]?
      = some b := ⟨_, List.getElem?_eq_getElem (by rw [hPlen]; omega)⟩
  have hbvis : b.visible = true := by
    have h9 := hvisP_i
    rw [List.getElem?_map, hb] at h9
    exact Option.some_inj.mp h9
  have hbline : b.line_number = i := by
    refine map_range_getElem _ ?_ i b hb
    rw [hPline, hln, hPlen]
  have hfiltB : ((visPassFrom none (flipCollapsedAt st.items i)).1.filter
        (fun r => r.visible))[sel - (index - i)]? = some b := by
    have h10 := filter_getElem_of_countP (visPassFrom none (flipCollapsedAt st.items i)).1
      (fun r => r.visible) i b hb hbvis
    rw [hcntP, hcti] at h10
    exact h10
  have hsellt : sel < st.visible_items.length := getElem_some_lt _ _ _ hxe
  obtain ⟨st3, hst3, h3i, h3v, h3sel, h3top, h3h, h3ss, h3si, h3n⟩ :=
    select_index_spec { st with items := flipCollapsedAt st.items i, selected := some sel }
      (sel - (index - i))
      (by show sel - (index - i) < st.visible_items.length; omega)
      (fun y hy => by
        have hf := (vis_getElem_facts st hvisc hln (sel - (index - i)) y hy).1
        show y.line_number < (flipCollapsedAt st.items i).length
        rw [flip_length]
        exact hf)
      hh
  have h3i2 : st3.items = flipCollapsedAt st.items i := h3i
  have h3h2 : st3.list_height = st.list_height := h3h
  have hvis4 : (recalculate_visible st3).visible_items
      = (visPassFrom none (flipCollapsedAt st.items i)).1.filter (fun r => r.visible) := by
    show ((visPassFrom none st3.items).1).filter (fun r => r.visible) = _
    rw [h3i2]
  have hit4 : (recalculate_visible st3).items
      = (visPassFrom none (flipCollapsedAt st.items i)).1 := by
    show (visPassFrom none st3.items).1 = _
    rw [h3i2]
  have h4selEq : (recalculate_visible st3).selected = some (sel - (index - i)) := by
    show st3.selected = some (sel - (index - i))
    exact h3sel
  have hh4 : (recalculate_visible st3).list_height = st.list_height := by
    show st3.list_height = st.list_height
    exact h3h2
  have htop4 : (recalculate_visible st3).top_index = st3.top_index := rfl
  have hlen4 : sel - (index - i) < (recalculate_visible st3).visible_items.length := by
    rw [hvis4]
    exact getElem_some_lt _ _ _ hfiltB
  have hhyp : ∀ s2, (recalculate_visible st3).selected = some s2 →
      ∃ z, (recalculate_visible st3).visible_items[s2]? = some z
        ∧ z.line_number < (recalculate_visible st3).items.length
        ∧ (recalculate_visible st3).top_index ≤ bottom_index (recalculate_visible st3)
        ∧ bottom_index (recalculate_visible st3)
            ≤ (recalculate_visible st3).visible_items.length := by
    intro s2 hs2
    rw [h4selEq] at hs2
    obtain rfl : sel - (index - i) = s2 := Option.some_inj.mp hs2
    refine ⟨b, ?_, ?_, ?_, ?_⟩
    · rw [hvis4]
      exact hfiltB
    · rw [hit4, hPlen, hbline]
      omega
    · unfold bottom_index
      rw [hh4, htop4, if_neg (by omega)]
      omega
    · unfold bottom_index
      rw [hh4, if_neg (by omega)]
      omega
  obtain ⟨st2, hst2, g_items, g_sel, g_top, g_h, g_ss, g_si, g_n, g_clear⟩ :=
    recalcSelLevel_some (recalculate_visible st3) hhyp
  unfold toggle_collapsed
  rw [hsel]
  dsimp only
  rw [hxe]
  dsimp only
  rw [hxline, if_pos hxlt, hwalk]
  dsimp only
  rw [if_neg (show ¬ sel < index - i by omega), hst3]
  dsimp only
  refine ⟨st2, hst2, ?_, ?_, ?_, ?_, ?_, ?_, ?_, ?_⟩
  · rw [g_items, hit4]
  · rw [g_clear, hvis4, g_items, hit4]
  · rw [g_sel, h4selEq]
  · have h11 : (st2.visible_items.map clearSel)[sel - (index - i)]?
        = some (clearSel b) := by
      rw [g_clear, hvis4, List.getElem?_map, hfiltB]
      rfl
    rw [List.getElem?_map] at h11
    obtain ⟨z, hz, hzc⟩ := Option.map_eq_some'.mp h11
    rw [hz]
    show some (z.line_number, z.visible) = some (i, true)
    have hzl : z.line_number = b.line_number := by
      have h12 := congrArg JsonItem.line_number hzc
      exact h12
    have hzv : z.visible = b.visible := by
      have h13 := congrArg JsonItem.visible hzc
      exact h13
    rw [hzl, hzv, hbline, hbvis]
  · rw [g_items, hit4, hb]
    show some b.visible = some true
    rw [hbvis]
  · rw [g_h, hh4]
  · rw [g_items, hit4, hPline]
  · rw [g_items, hit4, hPvalue]

/-- Claim C3, amended: when the selection sits on line `index` of a
consistent state, `toggle_collapsed` walks back to the nearest *preceding*
container-open row `i` by line number — which need not be an enclosing
ancestor (see the counterexample) — flips it, and, provided every row from
`i` through `index` was visible, re-anchors the selection to the visible
position `sel - (index - i)`, which after the recomputation holds row `i`
itself, a visible row; the operation completes without panicking. -/
theorem c3_amended (st : AppState) (sel index i : Nat)
    (hsel : st.selected = some sel)
    (hx : (st.visible_items[sel]?.map fun r => r.line_number) = some index)
    (hwalk : walkContainer st.items index = some i)
    (hile : i ≤ index)
    (hvisb : ((st.items.drop i).take (index + 1 - i)).all (fun r => r.visible) = true)
    (hln : st.items.map (fun it => it.line_number) = List.range st.items.length)
    (hvisc : st.visible_items.map clearSel
      = (st.items.filter (fun r => r.visible)).map clearSel)
    (hpass : st.items.map (fun r => r.visible)
      = ((visPassFrom none st.items).1).map (fun r => r.visible))
    (hh : 2 ≤ st.list_height) :
    ∃ st2, toggle_collapsed st = some st2
      ∧ st2.selected = some (sel - (index - i))
      ∧ (st2.visible_items[sel - (index - i)]?.map fun r => (r.line_number, r.visible))
          = some (i, true) := by
  obtain ⟨st2, h1, _, _, h4, h5, _, _, _, _⟩ :=
    toggle_spec st sel index i hsel hx hwalk hile hvisb hln hvisc hpass hh
  exact ⟨st2, h1, h4, h5⟩

/-- Witness for the amended re-anchoring claim: on `{"a": {"x": 1}}` with the
scalar row of `"x"` (line 2, visible position 2) selected, toggling collapses
the subtree of `"a"` (line 1) and re-anchors the selection to visible
position 1, the now-collapsed — and visible — row of `"a"`. -/
theorem c3_witness :
    ∃ st2, toggle_collapsed stC3w = some st2
      ∧ st2.selected = some (2 - (2 - 1))
      ∧ (st2.visible_items[2 - (2 - 1)]?.map fun r => (r.line_number, r.visible))
          = some (1, true) :=
  c3_amended stC3w 2 2 1 (by decide) (by decide) (by decide) (by decide) (by decide)
    (by decide) (by decide) (by decide) (by decide)

/-- Claim C8: toggling the collapsed flag of a selected container row twice
restores the `visible` flag of every row of the master sequence (stated over
every consistent state: positions number the rows, the visible sequence is
the filtered master sequence, and the `visible` flags agree with one
recomputation pass). -/
theorem c8_toggle_roundtrip (st : AppState) (sel index : Nat)
    (hsel : st.selected = some sel)
    (hx : (st.visible_items[sel]?.map fun r => r.line_number) = some index)
    (hcont : isContOpen st.items[index]? = true)
    (hln : st.items.map (fun it => it.line_number) = List.range st.items.length)
    (hvisc : st.visible_items.map clearSel
      = (st.items.filter (fun r => r.visible)).map clearSel)
    (hpass : st.items.map (fun r => r.visible)
      = ((visPassFrom none st.items).1).map (fun r => r.visible))
    (hh : 2 ≤ st.list_height) :
    ((toggle_collapsed st).bind toggle_collapsed).map
        (fun s => s.items.map fun r => r.visible)
      = some (st.items.map fun r => r.visible) := by
  obtain ⟨x, hxe, hxline⟩ := Option.map_eq_some'.mp hx
  have hfacts := vis_getElem_facts st hvisc hln sel x hxe
  rw [hxline] at hfacts
  obtain ⟨hxlt, hcnt, hvisidx⟩ := hfacts
  have hwalk : walkContainer st.items index = some index :=
    walkContainer_here st.items index hcont
  have hvisb := singleton_slice_all st.items index hvisidx
  obtain ⟨st2, h1, h2items, h2visc, h2sel, h2pair, h2visi, h2h, h2line, h2value⟩ :=
    toggle_spec st sel index index hsel hx hwalk (le_refl index) hvisb hln hvisc hpass hh
  rw [Nat.sub_self, Nat.sub_zero] at h2sel h2pair
  have hlen2 : st2.items.length = st.items.length := by
    have h14 := congrArg List.length h2line
    rwa [List.length_map, List.length_map] at h14
  obtain ⟨y2, hy2, hy2pair⟩ := Option.map_eq_some'.mp h2pair
  have hy2line : y2.line_number = index := by
    have h15 := congrArg Prod.fst hy2pair
    exact h15
  have hx2 : (st2.visible_items[sel]?.map fun r => r.line_number) = some index := by
    rw [hy2]
    show some y2.line_number = some index
    rw [hy2line]
  have hcont2 : isContOpen st2.items[index]? = true := by
    rw [isContOpen_of_map_value st2.items st.items h2value index]
    exact hcont
  have hln2 : st2.items.map (fun it => it.line_number) = List.range st2.items.length := by
    rw [h2line, hlen2]
    exact hln
  have hwalk2 : walkContainer st2.items index = some index :=
    walkContainer_here _ _ hcont2
  have hvisb2 := singleton_slice_all st2.items index h2visi
  have hpass2 : st2.items.map (fun r => r.visible)
      = ((visPassFrom none st2.items).1).map (fun r => r.visible) := by
    rw [h2items]
    have hic : ((visPassFrom none (flipCollapsedAt st.items index)).1).map
          (fun it2 => (it2.indent, it2.collapsed))
        = (flipCollapsedAt st.items index).map fun it2 => (it2.indent, it2.collapsed) :=
      visPass_map_field (fun it2 => (it2.indent, it2.collapsed)) (fun _ _ => rfl) none
        (flipCollapsedAt st.items index)
    exact ((visPass_congr none (visPassFrom none (flipCollapsedAt st.items index)).1
      (flipCollapsedAt st.items index) hic).1).symm
  have hh2 : 2 ≤ st2.list_height := by
    rw [h2h]
    exact hh
  obtain ⟨st3, g1, g2items, _, _, _, _, _, _, _⟩ :=
    toggle_spec st2 sel index index h2sel hx2 hwalk2 (le_refl index) hvisb2 hln2
      h2visc hpass2 hh2
  rw [h1]
  show (toggle_collapsed st2).map (fun s => s.items.map fun r => r.visible)
      = some (st.items.map fun r => r.visible)
  rw [g1]
  show some (st3.items.map fun r => r.visible) = some (st.items.map fun r => r.visible)
  refine congrArg some ?_
  rw [g2items, h2items]
  have h16 := (visPass_congr none
    (flipCollapsedAt ((visPassFrom none (flipCollapsedAt st.items index)).1) index)
    st.items (flip_flip_ic st.items index)).1
  rw [h16, ← hpass]

/-- Witness for the collapse round-trip claim: on `{"a": {"x": 1}}` with the
container row of `"a"` selected, two toggles restore every row's `visible`
flag. -/
theorem c8_witness :
    ((toggle_collapsed stC8w).bind toggle_collapsed).map
        (fun s => s.items.map fun r => r.visible)
      = some (stC8w.items.map fun r => r.visible) :=
  c8_toggle_roundtrip stC8w 1 1 (by decide) (by decide) (by decide) (by decide)
    (by decide) (by decide) (by decide)

/-- `find?` returns the element at the first satisfying position. -/
theorem find_first {α : Type} (f : α → Bool) (L : List α) :
    ∀ (k : Nat) (a : α), L[k]? = some a → f a = true →
      (∀ j b, j < k → L[j]? = some b → f b = false) →
      L.find? f = some a := by
  induction L with
  | nil => intro k a ha; simp at ha
  | cons x rest ih =>
    intro k a ha hfa hbefore
    cases k with
    | zero =>
      simp only [List.getElem?_cons_zero, Option.some_inj] at ha
      subst ha
      exact List.find?_cons_of_pos rest hfa
    | succ k2 =>
      simp only [List.getElem?_cons_succ] at ha
      have hx : f x = false := hbefore 0 x (Nat.succ_pos k2) (by simp)
      rw [List.find?_cons_of_neg rest (by rw [hx]; exact Bool.false_ne_true)]
      exact ih k2 a ha hfa fun j b hj hb =>
        hbefore (j + 1) b (by omega) (by simpa using hb)

/-- `find?` over a reversed list returns the element at the last satisfying
position. -/
theorem find_reverse_last {α : Type} (f : α → Bool) (L : List α) :
    ∀ (k : Nat) (a : α), L[k]? = some a → f a = true →
      (∀ j b, k < j → L[j]? = some b → f b = false) →
      L.reverse.find? f = some a := by
  induction L with
  | nil => intro k a ha; simp at ha
  | cons x rest ih =>
    intro k a ha hfa hafter
    rw [List.reverse_cons, List.find?_append]
    cases k with
    | zero =>
      simp only [List.getElem?_cons_zero, Option.some_inj] at ha
      subst ha
      have hnone : rest.reverse.find? f = none := by
        rw [List.find?_eq_none]
        intro b hb
        rw [List.mem_reverse] at hb
        obtain ⟨j, hj⟩ := List.mem_iff_getElem?.mp hb
        rw [hafter (j + 1) b (Nat.succ_pos j) (by simpa using hj)]
        exact Bool.false_ne_true
      rw [hnone]
      show (List.find? f [x]) = some x
      exact List.find?_cons_of_pos [] hfa
    | succ k2 =>
      simp only [List.getElem?_cons_succ] at ha
      have hr : rest.reverse.find? f = some a :=
        ih k2 a ha hfa fun j b hj hb =>
          hafter (j + 1) b (by omega) (by simpa using hb)
      rw [hr]
      exact Option.or_some

/-- Claim C4, amended: the sibling movements compare against
`sibling_indent` — a scalar row's own depth *minus one* (its parent's depth),
a container open/end row's own depth. `select_next_object` selects the first
visible row after the selection whose depth equals that comparison depth,
`select_previous_object` the last one before it, and both are no-ops
(re-selecting the current position) when no such row exists. -/
theorem c4_amended (st : AppState) (sel t : Nat)
    (hsel : st.selected = some sel)
    (hx : (st.visible_items[sel]?.map fun y => sibling_indent y) = some t)
    (hlnb : ∀ y ∈ st.visible_items, y.line_number < st.items.length)
    (hh : 2 ≤ st.list_height) :
    (∀ p, sel < p → (st.visible_items[p]?.map fun y => y.indent) = some t →
      (∀ q, sel < q → q < p → (st.visible_items[q]?.map fun y => y.indent) ≠ some t) →
      ∃ st2, select_next_object st = some st2 ∧ st2.selected = some p)
    ∧ ((∀ q, sel < q → (st.visible_items[q]?.map fun y => y.indent) ≠ some t) →
      ∃ st2, select_next_object st = some st2 ∧ st2.selected = some sel)
    ∧ (∀ p, p < sel → (st.visible_items[p]?.map fun y => y.indent) = some t →
      (∀ q, p < q → q < sel → (st.visible_items[q]?.map fun y => y.indent) ≠ some t) →
      ∃ st2, select_previous_object st = some st2 ∧ st2.selected = some p)
    ∧ ((∀ q, q < sel → (st.visible_items[q]?.map fun y => y.indent) ≠ some t) →
      ∃ st2, select_previous_object st = some st2 ∧ st2.selected = some sel) := by
  obtain ⟨x, hxe, hsi⟩ := Option.map_eq_some'.mp hx
  have hsel_spec : ∀ P, P < st.visible_items.length →
      ∃ st2, select_index st P = some st2 ∧ st2.selected = some P := by
    intro P hP
    obtain ⟨st2, he, _, _, hse, _, _, _, _, _⟩ :=
      select_index_spec st P hP
        (fun y hy => hlnb y (List.mem_iff_getElem?.mpr ⟨P, hy⟩)) hh
    exact ⟨st2, he, hse⟩
  have hsellt : sel < st.visible_items.length := getElem_some_lt _ _ _ hxe
  unfold select_next_object select_previous_object
  rw [hsel]
  dsimp only
  rw [hxe]
  dsimp only
  rw [hsi]
  refine ⟨?_, ?_, ?_, ?_⟩
  · intro p hp hpt hmin
    obtain ⟨z, hz, hzi⟩ := Option.map_eq_some'.mp hpt
    have hfind : (st.visible_items.enum.find? fun pr =>
        decide (pr.1 > sel) && decide (pr.2.indent = t)) = some (p, z) := by
      refine find_first _ _ p (p, z) ?_ ?_ ?_
      · rw [List.getElem?_enum, hz]
        rfl
      · show (decide (p > sel) && decide (z.indent = t)) = true
        rw [decide_eq_true hp, decide_eq_true hzi]
        rfl
      · intro j b hj hb
        rw [List.getElem?_enum] at hb
        obtain ⟨w, hw, hwb⟩ := Option.map_eq_some'.mp hb
        subst hwb
        show (decide (j > sel) && decide (w.indent = t)) = false
        by_cases hjs : j > sel
        · have hne : w.indent ≠ t := by
            intro hc
            exact hmin j hjs hj (by rw [hw]; exact congrArg some hc)
          rw [decide_eq_false hne, Bool.and_false]
        · rw [decide_eq_false hjs, Bool.false_and]
    rw [hfind]
    dsimp only [Option.map_some', Option.getD_some]
    exact hsel_spec p (getElem_some_lt _ _ _ hz)
  · intro hnone
    have hfind : (st.visible_items.enum.find? fun pr =>
        decide (pr.1 > sel) && decide (pr.2.indent = t)) = none := by
      rw [List.find?_eq_none]
      intro pr hpr
      obtain ⟨j, hj⟩ := List.mem_iff_getElem?.mp hpr
      rw [List.getElem?_enum] at hj
      obtain ⟨w, hw, hwb⟩ := Option.map_eq_some'.mp hj
      subst hwb
      show ¬ (decide (j > sel) && decide (w.indent = t)) = true
      by_cases hjs : j > sel
      · have hne : w.indent ≠ t := by
          intro hc
          exact hnone j hjs (by rw [hw]; exact congrArg some hc)
        rw [decide_eq_false hne, Bool.and_false]
        exact Bool.false_ne_true
      · rw [decide_eq_false hjs, Bool.false_and]
        exact Bool.false_ne_true
    rw [hfind]
    dsimp only [Option.map_none', Option.getD_none]
    exact hsel_spec sel hsellt
  · intro p hp hpt hmin
    obtain ⟨z, hz, hzi⟩ := Option.map_eq_some'.mp hpt
    have hfind : (st.visible_items.enum.reverse.find? fun pr =>
        decide (pr.1 < sel) && decide (pr.2.indent = t)) = some (p, z) := by
      refine find_reverse_last _ _ p (p, z) ?_ ?_ ?_
      · rw [List.getElem?_enum, hz]
        rfl
      · show (decide (p < sel) && decide (z.indent = t)) = true
        rw [decide_eq_true hp, decide_eq_true hzi]
        rfl
      · intro j b hj hb
        rw [List.getElem?_enum] at hb
        obtain ⟨w, hw, hwb⟩ := Option.map_eq_some'.mp hb
        subst hwb
        show (decide (j < sel) && decide (w.indent = t)) = false
        by_cases hjs : j < sel
        · have hne : w.indent ≠ t := by
            intro hc
            exact hmin j hj hjs (by rw [hw]; exact congrArg some hc)
          rw [decide_eq_false hne, Bool.and_false]
        · rw [decide_eq_false hjs, Bool.false_and]
    rw [hfind]
    dsimp only [Option.map_some', Option.getD_some]
    exact hsel_spec p (getElem_some_lt _ _ _ hz)
  · intro hnone
    have hfind : (st.visible_items.enum.reverse.find? fun pr =>
        decide (pr.1 < sel) && decide (pr.2.indent = t)) = none := by
      rw [List.find?_eq_none]
      intro pr hpr
      rw [List.mem_reverse] at hpr
      obtain ⟨j, hj⟩ := List.mem_iff_getElem?.mp hpr
      rw [List.getElem?_enum] at hj
      obtain ⟨w, hw, hwb⟩ := Option.map_eq_some'.mp hj
      subst hwb
      show ¬ (decide (j < sel) && decide (w.indent = t)) = true
      by_cases hjs : j < sel
      · have hne : w.indent ≠ t := by
          intro hc
          exact hnone j hjs (by rw [hw]; exact congrArg some hc)
        rw [decide_eq_false hne, Bool.and_false]
        exact Bool.false_ne_true
      · rw [decide_eq_false hjs, Bool.false_and]
        exact Bool.false_ne_true
    rw [hfind]
    dsimp only [Option.map_none', Option.getD_none]
    exact hsel_spec sel hsellt

/-- Witness for the amended sibling-movement claim: on `{"a": 1, "b": 2}`
with the scalar row of `"a"` selected (visible position 1, comparison depth
0), `select_next_object` selects position 3, the root `ObjectEnd`. -/
theorem c4_witness :
    ∃ st2, select_next_object stC4sel = some st2 ∧ st2.selected = some 3 :=
  (c4_amended stC4sel 1 0 (by decide) (by decide) (by decide) (by decide)).1 3
    (by decide) (by decide)
    (fun q h1 h2 => by interval_cases q; decide)

/-- `make_breadcrumbs` on an object key is the amended segment append. -/
theorem mb_obj (bc : Str) (k : Str) :
    make_breadcrumbs bc k .Object = crumbAppend bc (.key k) := by
  cases bc with
  | nil => rfl
  | cons c rest => simp [make_breadcrumbs, crumbAppend, segTextBracketed]

/-- `make_breadcrumbs` on an array index is the amended segment append. -/
theorem mb_arr (bc : Str) (i : Nat) :
    make_breadcrumbs bc (natToChars i) .Array = crumbAppend bc (.idx i) := by
  cases bc with
  | nil => rfl
  | cons c rest => simp [make_breadcrumbs, crumbAppend, segTextBracketed]

/-- Extending a path by one segment extends its breadcrumb by one append. -/
theorem crumbOfPath_append (p : List Seg) (s : Seg) :
    crumbOfPath (p ++ [s]) = crumbAppend (crumbOfPath p) s := by
  unfold crumbOfPath
  rw [List.foldl_append]
  rfl

/- The path-annotated flattener projects onto the real flattener, and every
row it emits carries the breadcrumb of its path. -/
mutual
theorem paths_fst : ∀ (v : JVal) (t : Option Str) (d : Nat) (bc : Str) (p : List Seg),
    (parse_json_paths v t d bc p).map Prod.fst = parse_json v t d bc
  | .obj m, t, d, bc, p => by
    simp [parse_json_paths, parse_json, paths_obj_fst m d bc p]
  | .arr a, t, d, bc, p => by
    simp [parse_json_paths, parse_json, paths_arr_fst a 0 d bc p]
  | .num n, t, d, bc, p => rfl
  | .bool b, t, d, bc, p => rfl
  | .str s, t, d, bc, p => rfl
  | .null, t, d, bc, p => rfl
theorem paths_obj_fst : ∀ (m : JObj) (d : Nat) (bc : Str) (p : List Seg),
    (parse_json_obj_paths m d bc p).map Prod.fst = parse_json_obj m d bc
  | .nil, d, bc, p => rfl
  | .cons k v tl, d, bc, p => by
    simp [parse_json_obj_paths, parse_json_obj,
      paths_fst v (some k) (d + 1) (make_breadcrumbs bc k .Object) (p ++ [Seg.key k]),
      paths_obj_fst tl d bc p]
theorem paths_arr_fst : ∀ (a : JList) (i d : Nat) (bc : Str) (p : List Seg),
    (parse_json_arr_paths a i d bc p).map Prod.fst = parse_json_arr a i d bc
  | .nil, i, d, bc, p => rfl
  | .cons v tl, i, d, bc, p => by
    simp [parse_json_arr_paths, parse_json_arr,
      paths_fst v none (d + 1) (make_breadcrumbs bc (natToChars i) .Array)
        (p ++ [Seg.idx i]),
      paths_arr_fst tl (i + 1) d bc p]
end

mutual
theorem paths_crumbs : ∀ (v : JVal) (t : Option Str) (d : Nat) (p : List Seg),
    ∀ pr ∈ parse_json_paths v t d (crumbOfPath p) p, pr.1.breadcrumbs = crumbOfPath pr.2
  | .obj m, t, d, p => by
    intro pr hpr
    simp only [parse_json_paths, List.mem_cons, List.mem_append, List.mem_singleton,
      List.not_mem_nil, or_false] at hpr
    rcases hpr with rfl | hpr | rfl
    · rfl
    · exact paths_obj_crumbs m d p pr hpr
    · rfl
  | .arr a, t, d, p => by
    intro pr hpr
    simp only [parse_json_paths, List.mem_cons, List.mem_append, List.mem_singleton,
      List.not_mem_nil, or_false] at hpr
    rcases hpr with rfl | hpr | rfl
    · rfl
    · exact paths_arr_crumbs a 0 d p pr hpr
    · rfl
  | .num n, t, d, p => by
    intro pr hpr
    simp only [parse_json_paths, List.mem_cons, List.not_mem_nil, or_false] at hpr
    subst hpr
    rfl
  | .bool b, t, d, p => by
    intro pr hpr
    simp only [parse_json_paths, List.mem_cons, List.not_mem_nil, or_false] at hpr
    subst hpr
    rfl
  | .str s, t, d, p => by
    intro pr hpr
    simp only [parse_json_paths, List.mem_cons, List.not_mem_nil, or_false] at hpr
    subst hpr
    rfl
  | .null, t, d, p => by
    intro pr hpr
    simp only [parse_json_paths, List.mem_cons, List.not_mem_nil, or_false] at hpr
    subst hpr
    rfl
theorem paths_obj_crumbs : ∀ (m : JObj) (d : Nat) (p : List Seg),
    ∀ pr ∈ parse_json_obj_paths m d (crumbOfPath p) p,
      pr.1.breadcrumbs = crumbOfPath pr.2
  | .nil, d, p => by
    intro pr hpr
    simp [parse_json_obj_paths] at hpr
  | .cons k v tl, d, p => by
    intro pr hpr
    simp only [parse_json_obj_paths, List.mem_append] at hpr
    rcases hpr with hpr | hpr
    · have heq : make_breadcrumbs (crumbOfPath p) k .Object
          = crumbOfPath (p ++ [Seg.key k]) := by
        rw [crumbOfPath_append, mb_obj]
      rw [heq] at hpr
      exact paths_crumbs v (some k) (d + 1) (p ++ [Seg.key k]) pr hpr
    · exact paths_obj_crumbs tl d p pr hpr
theorem paths_arr_crumbs : ∀ (a : JList) (i d : Nat) (p : List Seg),
    ∀ pr ∈ parse_json_arr_paths a i d (crumbOfPath p) p,
      pr.1.breadcrumbs = crumbOfPath pr.2
  | .nil, i, d, p => by
    intro pr hpr
    simp [parse_json_arr_paths] at hpr
  | .cons v tl, i, d, p => by
    intro pr hpr
    simp only [parse_json_arr_paths, List.mem_append] at hpr
    rcases hpr with hpr | hpr
    · have heq : make_breadcrumbs (crumbOfPath p) (natToChars i) .Array
          = crumbOfPath (p ++ [Seg.idx i]) := by
        rw [crumbOfPath_append, mb_arr]
      rw [heq] at hpr
      exact paths_crumbs v none (d + 1) (p ++ [Seg.idx i]) pr hpr
    · exact paths_arr_crumbs tl (i + 1) d p pr hpr
end

/-- Claim C6, amended: the flattener does build every breadcrumb
incrementally from the parent's — the root row's breadcrumb is empty and a
child appends separator plus segment, with `[index]` bracketing for array
elements — except at the root level, where the child breadcrumb is the bare
segment with *no* brackets even for a root array's elements (see the
counterexample): formally, every row the path-annotated flattener emits
carries exactly the breadcrumb obtained by folding the amended append over
its path, and the annotation projects onto the real flattener. -/
theorem c6_amended (v : JVal) :
    (parse_json_paths v none 0 [] []).map Prod.fst = parse_json v none 0 []
    ∧ ∀ pr ∈ parse_json_paths v none 0 [] [], pr.1.breadcrumbs = crumbOfPath pr.2 :=
  ⟨paths_fst v none 0 [] [],
   fun pr hpr => paths_crumbs v none 0 [] pr hpr⟩

/-- `flags_clear` is determined by the two match-flag columns. -/
theorem flags_congr (l₁ l₂ : List JsonItem) (h : l₁.map flagPair = l₂.map flagPair) :
    flags_clear l₁ = flags_clear l₂ := by
  induction l₁ generalizing l₂ with
  | nil =>
    cases l₂ with
    | nil => rfl
    | cons b t => simp at h
  | cons a t ih =>
    cases l₂ with
    | nil => simp at h
    | cons b t2 =>
      simp only [List.map_cons, List.cons.injEq] at h
      have hab : (!a.name_is_search_result && !a.value_is_search_result)
          = (!b.name_is_search_result && !b.value_is_search_result) := by
        have h1 := congrArg (fun p : Bool × Bool => !p.1 && !p.2) h.1
        exact h1
      show ((!a.name_is_search_result && !a.value_is_search_result) && flags_clear t)
        = ((!b.name_is_search_result && !b.value_is_search_result) && flags_clear t2)
      rw [hab, ih t2 h.2]

/-- Filtering keeps the flags clear. -/
theorem flags_filter (l : List JsonItem) (p : JsonItem → Bool)
    (h : flags_clear l = true) : flags_clear (l.filter p) = true := by
  refine List.all_eq_true.mpr ?_
  intro x hx
  exact List.all_eq_true.mp h x (List.mem_of_mem_filter hx)

/-- Mapping a window loop that preserves a projection preserves its map. -/
theorem enumFrom_map_proj {α : Type} (f : JsonItem → α) (g : Nat × JsonItem → JsonItem)
    (hg : ∀ p, f (g p) = f p.2) :
    ∀ (l : List JsonItem) (n : Nat), ((List.enumFrom n l).map g).map f = l.map f := by
  intro l
  induction l with
  | nil => intro n; rfl
  | cons it rest ih =>
    intro n
    simp only [List.enumFrom, List.map_cons, hg ((n, it)), ih (n + 1)]

/-- `recalculate_selection_level` keeps the master rows and the visible
rows' search flags. -/
theorem recalcSelLevel_pres (st st2 : AppState)
    (h : recalculate_selection_level st = some st2) :
    st2.items = st.items
    ∧ st2.visible_items.map flagPair = st.visible_items.map flagPair := by
  unfold recalculate_selection_level at h
  cases hsel : st.selected with
  | none =>
    rw [hsel] at h
    obtain rfl := Option.some_inj.mp h
    exact ⟨rfl, rfl⟩
  | some sel =>
    rw [hsel] at h
    dsimp only at h
    cases hv : st.visible_items[sel]? with
    | none =>
      rw [hv] at h
      exact Option.noConfusion h
    | some selItem =>
      rw [hv] at h
      dsimp only at h
      cases hi : st.items[selItem.line_number]? with
      | none =>
        rw [hi] at h
        exact Option.noConfusion h
      | some item =>
        rw [hi] at h
        dsimp only at h
        split_ifs at h with hcond
        · obtain rfl := Option.some_inj.mp h
          refine ⟨rfl, ?_⟩
          refine enumFrom_map_proj flagPair _ ?_ st.visible_items 0
          intro p
          dsimp only
          split_ifs with hw
          · show flagPair (applySelectionLevel _ p.2) = flagPair p.2
            unfold applySelectionLevel
            split_ifs <;> rfl
          · rfl

/-- `select_index` keeps the master rows and the visible rows' search
flags. -/
theorem select_index_pres (st st2 : AppState) (i : Nat)
    (h : select_index st i = some st2) :
    st2.items = st.items
    ∧ st2.visible_items.map flagPair = st.visible_items.map flagPair := by
  unfold select_index at h
  obtain ⟨hfi, hfv, _, _, _, _, _⟩ :=
    recalcScroll_fields { st with selected := some i }
  obtain ⟨h1, h2⟩ := recalcSelLevel_pres _ _ h
  constructor
  · rw [h1, hfi]
  · rw [h2, hfv]

/-- `select_next` keeps the master rows. -/
theorem select_next_items_eq (st st2 : AppState) (step : Nat)
    (h : select_next st step = some st2) : st2.items = st.items := by
  unfold select_next at h
  cases hsel : st.selected with
  | none =>
    rw [hsel] at h
    exact (select_index_pres _ _ _ h).1
  | some idx =>
    rw [hsel] at h
    dsimp only at h
    split_ifs at h with h1
    exact (select_index_pres _ _ _ h).1

/-- `select_previous` keeps the master rows. -/
theorem select_previous_items_eq (st st2 : AppState) (step : Nat)
    (h : select_previous st step = some st2) : st2.items = st.items := by
  unfold select_previous at h
  cases hsel : st.selected with
  | none =>
    rw [hsel] at h
    exact (select_index_pres _ _ _ h).1
  | some idx =>
    rw [hsel] at h
    dsimp only at h
    exact (select_index_pres _ _ _ h).1

/-- `select_next_object` keeps the master rows. -/
theorem select_next_object_items_eq (st st2 : AppState)
    (h : select_next_object st = some st2) : st2.items = st.items := by
  unfold select_next_object at h
  cases hsel : st.selected with
  | none =>
    rw [hsel] at h
    exact (select_index_pres _ _ _ h).1
  | some idx =>
    rw [hsel] at h
    dsimp only at h
    cases hv : st.visible_items[idx]? with
    | none =>
      rw [hv] at h
      exact Option.noConfusion h
    | some selItem =>
      rw [hv] at h
      dsimp only at h
      exact (select_index_pres _ _ _ h).1

/-- `select_previous_object` keeps the master rows. -/
theorem select_previous_object_items_eq (st st2 : AppState)
    (h : select_previous_object st = some st2) : st2.items = st.items := by
  unfold select_previous_object at h
  cases hsel : st.selected with
  | none =>
    rw [hsel] at h
    exact (select_index_pres _ _ _ h).1
  | some idx =>
    rw [hsel] at h
    dsimp only at h
    cases hv : st.visible_items[idx]? with
    | none =>
      rw [hv] at h
      exact Option.noConfusion h
    | some selItem =>
      rw [hv] at h
      dsimp only at h
      exact (select_index_pres _ _ _ h).1

/-- `select_bottom` keeps the master rows. -/
theorem select_bottom_items_eq (st st2 : AppState)
    (h : select_bottom st = some st2) : st2.items = st.items := by
  unfold select_bottom at h
  split_ifs at h
  exact (select_index_pres _ _ _ h).1

/-- `update_search_results` keeps the master rows. -/
theorem usr_items_eq (st st2 : AppState)
    (h : update_search_results st = some st2) : st2.items = st.items := by
  unfold update_search_results at h
  dsimp only at h
  split_ifs at h with h1
  · cases hr : search_results { st with visible_items := (st.visible_items.map fun it =>
        update_is_search_result it st.search_input
          (decide (st.search_state ≠ SearchState.NotSearching))) } with
    | nil =>
      rw [hr] at h
      obtain rfl := Option.some_inj.mp h
      rfl
    | cons r rest =>
      rw [hr] at h
      exact (select_index_pres _ _ _ h).1
  · obtain rfl := Option.some_inj.mp h
    rfl

/-- `next_search_result` keeps the master rows. -/
theorem next_sr_items_eq (st st2 : AppState)
    (h : next_search_result st = some st2) : st2.items = st.items := by
  unfold next_search_result at h
  cases hss : st.search_state with
  | BrowsingSearch o =>
    cases o with
    | none =>
      rw [hss] at h
      obtain rfl := Option.some_inj.mp h
      rfl
    | some idx =>
      rw [hss] at h
      dsimp only at h
      split_ifs at h with h1
      cases hr : (search_results st)[(idx + 1) % (search_results st).length]? with
      | none =>
        rw [hr] at h
        exact Option.noConfusion h
      | some r =>
        rw [hr] at h
        dsimp only at h
        obtain ⟨st3, hsi, heq⟩ := Option.map_eq_some'.mp h
        have hi3 : st2.items = st3.items := by
          have h2 := congrArg AppState.items heq
          exact h2.symm
        rw [hi3]
        exact (select_index_pres _ _ _ hsi).1
  | NotSearching =>
    rw [hss] at h
    obtain rfl := Option.some_inj.mp h
    rfl
  | Searching =>
    rw [hss] at h
    obtain rfl := Option.some_inj.mp h
    rfl

/-- `previous_search_result` keeps the master rows. -/
theorem prev_sr_items_eq (st st2 : AppState)
    (h : previous_search_result st = some st2) : st2.items = st.items := by
  unfold previous_search_result at h
  cases hss : st.search_state with
  | BrowsingSearch o =>
    cases o with
    | none =>
      rw [hss] at h
      obtain rfl := Option.some_inj.mp h
      rfl
    | some idx =>
      rw [hss] at h
      dsimp only at h
      cases idx with
      | zero =>
        dsimp only at h
        split_ifs at h with h1
        cases hr : (search_results st)[(search_results st).length - 1]? with
        | none =>
          rw [hr] at h
          exact Option.noConfusion h
        | some r =>
          rw [hr] at h
          dsimp only at h
          obtain ⟨st3, hsi, heq⟩ := Option.map_eq_some'.mp h
          have hi3 : st2.items = st3.items := by
            have h2 := congrArg AppState.items heq
            exact h2.symm
          rw [hi3]
          exact (select_index_pres _ _ _ hsi).1
      | succ i2 =>
        dsimp only at h
        cases hr : (search_results st)[i2]? with
        | none =>
          rw [hr] at h
          exact Option.noConfusion h
        | some r =>
          rw [hr] at h
          dsimp only at h
          obtain ⟨st3, hsi, heq⟩ := Option.map_eq_some'.mp h
          have hi3 : st2.items = st3.items := by
            have h2 := congrArg AppState.items heq
            exact h2.symm
          rw [hi3]
          exact (select_index_pres _ _ _ hsi).1
  | NotSearching =>
    rw [hss] at h
    obtain rfl := Option.some_inj.mp h
    rfl
  | Searching =>
    rw [hss] at h
    obtain rfl := Option.some_inj.mp h
    rfl

/-- `toggle_collapsed` never touches the master rows' search flags, and
whenever it actually recomputes visibility the resulting visible sequence is
the filtered master sequence flag-for-flag. -/
theorem toggle_pres (st st2 : AppState) (h : toggle_collapsed st = some st2) :
    st2.items.map flagPair = st.items.map flagPair
    ∧ (st2 = st ∨ st2.visible_items.map flagPair
        = (st2.items.filter (fun r => r.visible)).map flagPair) := by
  unfold toggle_collapsed at h
  cases hsel : st.selected with
  | none =>
    rw [hsel] at h
    obtain rfl := Option.some_inj.mp h
    exact ⟨rfl, Or.inl rfl⟩
  | some sel =>
    rw [hsel] at h
    dsimp only at h
    cases hv : st.visible_items[sel]? with
    | none =>
      rw [hv] at h
      exact Option.noConfusion h
    | some selItem =>
      rw [hv] at h
      dsimp only at h
      split_ifs at h with hidx
      cases hw : walkContainer st.items selItem.line_number with
      | none =>
        rw [hw] at h
        obtain rfl := Option.some_inj.mp h
        exact ⟨rfl, Or.inl rfl⟩
      | some i =>
        rw [hw] at h
        dsimp only at h
        split_ifs at h with hlt
        cases hsi : select_index
            { st with items := flipCollapsedAt st.items i, selected := some sel }
            (sel - (selItem.line_number - i)) with
        | none =>
          rw [hsi] at h
          exact Option.noConfusion h
        | some st3 =>
          rw [hsi] at h
          dsimp only at h
          obtain ⟨hp1, hp2⟩ := recalcSelLevel_pres _ _ h
          obtain ⟨hq1, _⟩ := select_index_pres _ _ _ hsi
          have hq1b : st3.items = flipCollapsedAt st.items i := hq1
          have hitems : st2.items = (visPassFrom none st3.items).1 := hp1
          constructor
          · rw [hitems, visPass_map_field flagPair (fun _ _ => rfl), hq1b,
              flip_map_field flagPair (fun _ _ => rfl)]
          · right
            have hvis : st2.visible_items.map flagPair
                = ((visPassFrom none st3.items).1.filter (fun r => r.visible)).map
                    flagPair := hp2
            rw [hvis, hitems]

/-- `collapse_level` never touches the master rows' search flags, and a
recomputing run leaves the visible sequence flag-consistent with the master
sequence. -/
theorem collapse_level_pres (st st2 : AppState) (h : collapse_level st = some st2) :
    st2.items.map flagPair = st.items.map flagPair
    ∧ (st2 = st ∨ st2.visible_items.map flagPair
        = (st2.items.filter (fun r => r.visible)).map flagPair) := by
  unfold collapse_level at h
  cases hsel : st.selected with
  | none =>
    rw [hsel] at h
    obtain rfl := Option.some_inj.mp h
    exact ⟨rfl, Or.inl rfl⟩
  | some sel =>
    rw [hsel] at h
    dsimp only at h
    cases hv : st.visible_items[sel]? with
    | none =>
      rw [hv] at h
      exact Option.noConfusion h
    | some selItem =>
      rw [hv] at h
      dsimp only at h
      cases hi : st.items[selItem.line_number]? with
      | none =>
        rw [hi] at h
        exact Option.noConfusion h
      | some item =>
        rw [hi] at h
        dsimp only at h
        cases hval : item.value with
        | Array =>
          rw [hval] at h
          dsimp only at h
          obtain ⟨hq1, hq2⟩ := select_index_pres _ _ _ h
          have hitem2 : st2.items = (visPassFrom none (st.items.map fun it =>
              if it.indent = item.indent ∧ (it.value = .Array ∨ it.value = .Object) then
                { it with collapsed := true }
              else it)).1 := hq1
          have hvis2 : st2.visible_items.map flagPair
              = ((visPassFrom none (st.items.map fun it =>
                  if it.indent = item.indent ∧ (it.value = .Array ∨ it.value = .Object) then
                    { it with collapsed := true }
                  else it)).1.filter (fun r => r.visible)).map flagPair := hq2
          constructor
          · rw [hitem2, visPass_map_field flagPair (fun _ _ => rfl), List.map_map]
            refine List.map_congr_left ?_
            intro a ha
            simp only [Function.comp_apply]
            split_ifs <;> rfl
          · right
            rw [hvis2, hitem2]
        | Object =>
          rw [hval] at h
          dsimp only at h
          obtain ⟨hq1, hq2⟩ := select_index_pres _ _ _ h
          have hitem2 : st2.items = (visPassFrom none (st.items.map fun it =>
              if it.indent = item.indent ∧ (it.value = .Array ∨ it.value = .Object) then
                { it with collapsed := true }
              else it)).1 := hq1
          have hvis2 : st2.visible_items.map flagPair
              = ((visPassFrom none (st.items.map fun it =>
                  if it.indent = item.indent ∧ (it.value = .Array ∨ it.value = .Object) then
                    { it with collapsed := true }
                  else it)).1.filter (fun r => r.visible)).map flagPair := hq2
          constructor
          · rw [hitem2, visPass_map_field flagPair (fun _ _ => rfl), List.map_map]
            refine List.map_congr_left ?_
            intro a ha
            simp only [Function.comp_apply]
            split_ifs <;> rfl
          · right
            rw [hvis2, hitem2]
        | Number n =>
          rw [hval] at h
          obtain rfl := Option.some_inj.mp h
          exact ⟨rfl, Or.inl rfl⟩
        | String s =>
          rw [hval] at h
          obtain rfl := Option.some_inj.mp h
          exact ⟨rfl, Or.inl rfl⟩
        | Bool b =>
          rw [hval] at h
          obtain rfl := Option.some_inj.mp h
          exact ⟨rfl, Or.inl rfl⟩
        | ArrayEnd =>
          rw [hval] at h
          obtain rfl := Option.some_inj.mp h
          exact ⟨rfl, Or.inl rfl⟩
        | ObjectEnd =>
          rw [hval] at h
          obtain rfl := Option.some_inj.mp h
          exact ⟨rfl, Or.inl rfl⟩
        | Null =>
          rw [hval] at h
          obtain rfl := Option.some_inj.mp h
          exact ⟨rfl, Or.inl rfl⟩

/-- `uncollapse_all` never touches the master rows' search flags and always
leaves the visible sequence flag-consistent with the master sequence. -/
theorem uncollapse_pres (st st2 : AppState) (h : uncollapse_all st = some st2) :
    st2.items.map flagPair = st.items.map flagPair
    ∧ (st2 = st ∨ st2.visible_items.map flagPair
        = (st2.items.filter (fun r => r.visible)).map flagPair) := by
  unfold uncollapse_all at h
  cases hv : st.visible_items[st.selected.getD 0]? with
  | none =>
    rw [hv] at h
    exact Option.noConfusion h
  | some it =>
    rw [hv] at h
    dsimp only at h
    obtain ⟨hq1, hq2⟩ := select_index_pres _ _ _ h
    have hitem2 : st2.items = (visPassFrom none (st.items.map fun i2 =>
        { i2 with collapsed := false })).1 := hq1
    have hvis2 : st2.visible_items.map flagPair
        = ((visPassFrom none (st.items.map fun i2 =>
            { i2 with collapsed := false })).1.filter (fun r => r.visible)).map
            flagPair := hq2
    constructor
    · rw [hitem2, visPass_map_field flagPair (fun _ _ => rfl), List.map_map]
      refine List.map_congr_left ?_
      intro a ha
      rfl
    · right
      rw [hvis2, hitem2]

/-- `start_searching` keeps the master rows' search flags. -/
theorem start_searching_flags (st st2 : AppState)
    (h : start_searching st = some st2) :
    st2.items.map flagPair = st.items.map flagPair := by
  unfold start_searching at h
  cases hu : uncollapse_all st with
  | none =>
    rw [hu] at h
    exact Option.noConfusion h
  | some stu =>
    rw [hu] at h
    dsimp only at h
    have h2 := usr_items_eq _ _ h
    have h3 : st2.items = stu.items := h2
    rw [h3]
    exact (uncollapse_pres _ _ hu).1

/-- `cancel_searching` keeps the master rows. -/
theorem cancel_searching_items_eq (st st2 : AppState)
    (h : cancel_searching st = some st2) : st2.items = st.items := by
  unfold cancel_searching at h
  have h2 := usr_items_eq _ _ h
  exact h2

/-- `finish_searching` keeps the master rows. -/
theorem finish_searching_items_eq (st st2 : AppState)
    (h : finish_searching st = some st2) : st2.items = st.items := by
  unfold finish_searching at h
  cases hu : update_search_results st with
  | none =>
    rw [hu] at h
    exact Option.noConfusion h
  | some stu =>
    rw [hu] at h
    dsimp only at h
    obtain rfl := Option.some_inj.mp h
    show stu.items = st.items
    exact usr_items_eq _ _ hu

/-- `update_search` keeps the master rows. -/
theorem update_search_items_eq (st st2 : AppState) (text : Str)
    (h : update_search st text = some st2) : st2.items = st.items := by
  unfold update_search at h
  dsimp only at h
  split_ifs at h with h1
  · obtain rfl := Option.some_inj.mp h
    rfl
  · have h2 := usr_items_eq _ _ h
    exact h2

/- The flattener emits every row with both search flags clear. -/
mutual
theorem parse_flags : ∀ (v : JVal) (t : Option Str) (d : Nat) (bc : Str),
    flags_clear (parse_json v t d bc) = true
  | .obj m, t, d, bc => by
    have h1 := parse_obj_flags m d bc
    unfold flags_clear at h1 ⊢
    simp [parse_json, List.all_append, h1, jsonItemNew]
  | .arr a, t, d, bc => by
    have h1 := parse_arr_flags a 0 d bc
    unfold flags_clear at h1 ⊢
    simp [parse_json, List.all_append, h1, jsonItemNew]
  | .num n, t, d, bc => by simp [parse_json, flags_clear, jsonItemNew]
  | .bool b, t, d, bc => by simp [parse_json, flags_clear, jsonItemNew]
  | .str s, t, d, bc => by simp [parse_json, flags_clear, jsonItemNew]
  | .null, t, d, bc => by simp [parse_json, flags_clear, jsonItemNew]
theorem parse_obj_flags : ∀ (m : JObj) (d : Nat) (bc : Str),
    flags_clear (parse_json_obj m d bc) = true
  | .nil, d, bc => rfl
  | .cons k v tl, d, bc => by
    have h1 := parse_flags v (some k) (d + 1) (make_breadcrumbs bc k .Object)
    have h2 := parse_obj_flags tl d bc
    unfold flags_clear at h1 h2 ⊢
    simp [parse_json_obj, List.all_append, h1, h2]
theorem parse_arr_flags : ∀ (a : JList) (i d : Nat) (bc : Str),
    flags_clear (parse_json_arr a i d bc) = true
  | .nil, i, d, bc => rfl
  | .cons v tl, i, d, bc => by
    have h1 := parse_flags v none (d + 1) (make_breadcrumbs bc (natToChars i) .Array)
    have h2 := parse_arr_flags tl (i + 1) d bc
    unfold flags_clear at h1 h2 ⊢
    simp [parse_json_arr, List.all_append, h1, h2]
end

/-- Numbering the lines keeps the search flags. -/
theorem numberLines_map_flagPair (l : List JsonItem) (n : Nat) :
    (numberLines l n).map flagPair = l.map flagPair := by
  induction l generalizing n with
  | nil => rfl
  | cons it rest ih => simp [numberLines, ih (n + 1), flagPair]

/-- A freshly flattened document has every search flag clear. -/
theorem parse_doc_flags (v : JVal) : flags_clear (parse_json_doc v) = true := by
  unfold parse_json_doc
  rw [flags_congr _ _ (numberLines_map_flagPair (parse_json v none 0 []) 0)]
  exact parse_flags v none 0 []

/-- Claim C10: in every reachable state the master row sequence carries no
search-match flag — the flags only ever live in the visible-sequence copies —
and consequently whenever `toggle_collapsed`, `collapse_level` or
`uncollapse_all` actually recomputes visibility (every branch except the
no-op ones, which return the state unchanged), the rebuilt visible sequence
has every match flag false: the current match set is discarded. -/
theorem c10_flags (st : AppState) (h : Reach st) :
    flags_clear st.items = true
    ∧ ∀ st2, toggle_collapsed st = some st2 ∨ collapse_level st = some st2
        ∨ uncollapse_all st = some st2 →
      st2 = st ∨ flags_clear st2.visible_items = true := by
  have hmaster : flags_clear st.items = true := by
    induction h with
    | init v st0 hinit =>
      have h1 : st0.items = parse_json_doc v := by
        unfold app_state_new at hinit
        have h2 := select_next_items_eq _ _ _ hinit
        exact h2
      rw [h1]
      exact parse_doc_flags v
    | height st0 hh hr ih => exact ih
    | selNext st0 st2 step hr hs ih =>
      rw [select_next_items_eq _ _ _ hs]
      exact ih
    | selPrev st0 st2 step hr hs ih =>
      rw [select_previous_items_eq _ _ _ hs]
      exact ih
    | selNextObj st0 st2 hr hs ih =>
      rw [select_next_object_items_eq _ _ hs]
      exact ih
    | selPrevObj st0 st2 hr hs ih =>
      rw [select_previous_object_items_eq _ _ hs]
      exact ih
    | selTop st0 st2 hr hs ih =>
      rw [(select_index_pres _ _ _ hs).1]
      exact ih
    | selBottom st0 st2 hr hs ih =>
      rw [select_bottom_items_eq _ _ hs]
      exact ih
    | selTopScreen st0 st2 hr hs ih =>
      rw [(select_index_pres _ _ _ hs).1]
      exact ih
    | selMiddleScreen st0 st2 hr hs ih =>
      rw [(select_index_pres _ _ _ hs).1]
      exact ih
    | selBottomScreen st0 st2 hr hs ih =>
      rw [(select_index_pres _ _ _ hs).1]
      exact ih
    | toggle st0 st2 hr hs ih =>
      rw [flags_congr _ _ (toggle_pres _ _ hs).1]
      exact ih
    | collapseLevel st0 st2 hr hs ih =>
      rw [flags_congr _ _ (collapse_level_pres _ _ hs).1]
      exact ih
    | uncollapseAll st0 st2 hr hs ih =>
      rw [flags_congr _ _ (uncollapse_pres _ _ hs).1]
      exact ih
    | startSearch st0 st2 hr hs ih =>
      rw [flags_congr _ _ (start_searching_flags _ _ hs)]
      exact ih
    | cancelSearch st0 st2 hr hs ih =>
      rw [cancel_searching_items_eq _ _ hs]
      exact ih
    | finishSearch st0 st2 hr hs ih =>
      rw [finish_searching_items_eq _ _ hs]
      exact ih
    | updSearch st0 st2 text hr hs ih =>
      rw [update_search_items_eq _ _ _ hs]
      exact ih
    | nextResult st0 st2 hr hs ih =>
      rw [next_sr_items_eq _ _ hs]
      exact ih
    | prevResult st0 st2 hr hs ih =>
      rw [prev_sr_items_eq _ _ hs]
      exact ih
  refine ⟨hmaster, ?_⟩
  intro st2 hop
  have hcases : st2.items.map flagPair = st.items.map flagPair
      ∧ (st2 = st ∨ st2.visible_items.map flagPair
          = (st2.items.filter (fun r => r.visible)).map flagPair) := by
    rcases hop with hop | hop | hop
    · exact toggle_pres _ _ hop
    · exact collapse_level_pres _ _ hop
    · exact uncollapse_pres _ _ hop
  obtain ⟨h1, h2 | h2⟩ := hcases
  · exact Or.inl h2
  · right
    rw [flags_congr _ _ h2]
    refine flags_filter _ _ ?_
    rw [flags_congr _ _ h1]
    exact hmaster

/-- Witness for the search-flag claim at the freshly loaded
`{"a": {"x": 1}}` session. -/
theorem c10_witness :
    flags_clear stW0.items = true
    ∧ ∀ st2, toggle_collapsed stW0 = some st2 ∨ collapse_level stW0 = some st2
        ∨ uncollapse_all stW0 = some st2 →
      st2 = stW0 ∨ flags_clear st2.visible_items = true :=
  c10_flags stW0 (Reach.init docW stW0 (Option.some_get (by decide)).symm)
